import Mathlib

/-!
Verification development for the teleprompter-server repository
(src/src/observer.js, src/src/server.js, src/unnamed/part_000).

The core under study is the deep change-observation and patch-reconciliation
engine of src/src/observer.js:

* `applyChange` (lines 171-241) — the patch reconciler.  It is a pure
  recursive walk over two JavaScript object trees, mutating the first in
  place.  We embed JavaScript values as the inductive `JSVal`, with one
  field descriptor per property (enumerable / configurable flags plus a
  data-or-accessor kind), and embed `applyChange` as a function returning
  the updated tree together with the list of reports sent to the logging
  collaborator, or the partially updated tree when a TypeError escapes.

* `DeepObserve` / `observe` (lines 9-166) — the producer side.  Its
  behaviour depends essentially on JavaScript reference aliasing (the diff
  staging objects are shared between nodes), so it is embedded as an
  operational model with an explicit heap of diff/target objects.

* `Server.prototype.on` (src/src/server.js lines 219-235) — the event
  registration surface.

Modelling conventions, stated once here:
  - machine integers do not occur; JavaScript numbers that appear in the
    claims are integers, embedded as `Int` (NaN / floats are never produced
    by the modelled code paths);
  - `===` on two object values is modelled as `false`: the reconciler is fed
    trees received from the wire, which share no references with the local
    tree; primitives compare structurally, exactly as `===` does;
  - string objects are never indexed (`{...str}` spreading character keys
    cannot occur on the modelled code paths), so primitives other than
    `null`/`undefined` are modelled as having no own properties;
  - the code runs under `'use strict'`, so failing assignments throw and are
    caught by the `try`/`catch` blocks of `applyChange`.
-/

set_option maxHeartbeats 1000000

namespace TeleprompterServer

/-- Kind of a JavaScript property descriptor, as inspected by `applyChange`
(`descriptor.value`, `descriptor.set`): either a data property carrying a
value and a writable flag, or an accessor property.  Accessors are modelled
with a backing slot: a getter (when present) returns the slot, a setter
(when present) writes it — this is exactly the accessor pair that
`observe` synthesizes in src/src/observer.js lines 116-121, and the only
accessor shape the modelled code paths create. -/
inductive FldKind (V : Type) where
  | data (value : V) (writable : Bool)
  | accessor (hasGet : Bool) (hasSet : Bool) (slot : V)

/-- One own property of a JavaScript object: key, enumerable and
configurable descriptor flags, and the property kind. -/
structure Fld (V : Type) where
  key : String
  enumerable : Bool
  configurable : Bool
  kind : FldKind V

/-- A JavaScript value: the primitives, functions (identified by an id,
relevant only for `typeof` checks and reference equality), and objects as
ordered own-property lists. -/
inductive JSVal where
  | vNull
  | vUndef
  | vBool (b : Bool)
  | vNum (n : Int)
  | vStr (s : String)
  | vFun (id : Nat)
  | vObj (fields : List (Fld JSVal))

namespace JSVal

/-- JavaScript truthiness of a value. -/
def truthy : JSVal → Bool
  | .vNull => false
  | .vUndef => false
  | .vBool b => b
  | .vNum n => n != 0
  | .vStr s => s != ""
  | .vFun _ => true
  | .vObj _ => true

/-- Whether `typeof v === 'object'`; note that `typeof null === 'object'`
in JavaScript, which is essential to `applyChange`'s recursion guard
(src/src/observer.js lines 219-222). -/
def typeofObject : JSVal → Bool
  | .vNull => true
  | .vObj _ => true
  | _ => false

/-- Strict equality `===`.  Primitives compare structurally; two object
values compare unequal (see the aliasing convention in the file header);
functions compare by identity. -/
def strictEq : JSVal → JSVal → Bool
  | .vNull, .vNull => true
  | .vUndef, .vUndef => true
  | .vBool a, .vBool b => a == b
  | .vNum a, .vNum b => a == b
  | .vStr a, .vStr b => a == b
  | .vFun a, .vFun b => a == b
  | _, _ => false

end JSVal

/-- First field with the given key (JavaScript own-property lookup). -/
def fieldsLookup : List (Fld JSVal) → String → Option (Fld JSVal)
  | [], _ => none
  | f :: fs, k => if f.key == k then some f else fieldsLookup fs k

/-- The value obtained by reading a property: a data property yields its
value, an accessor yields its slot through the getter, or `undefined` when
there is no getter. -/
def Fld.readVal (f : Fld JSVal) : JSVal :=
  match f.kind with
  | .data v _ => v
  | .accessor hasGet _ s => if hasGet then s else (.vUndef)

/-- The `value` attribute of the descriptor, `undefined` for accessors
(this is what `applyChange` line 206 tests for truthiness). -/
def Fld.descValue (f : Fld JSVal) : JSVal :=
  match f.kind with
  | .data v _ => v
  | .accessor _ _ _ => (.vUndef)

/-- Property descriptor lookup, `Object.getOwnPropertyDescriptor`:
only objects have own properties under the modelling conventions. -/
def objLookup : JSVal → String → Option (Fld JSVal)
  | .vObj fs, k => fieldsLookup fs k
  | _, _ => none

/-- Property read `base[k]`.  `none` models the TypeError thrown when the
base is `null` or `undefined`; other primitives box to objects without own
properties on the modelled paths. -/
def readProp : JSVal → String → Option JSVal
  | .vNull, _ => none
  | .vUndef, _ => none
  | .vObj fs, k =>
    some (match fieldsLookup fs k with
          | some f => f.readVal
          | none => .vUndef)
  | _, _ => some (.vUndef)

/-- `base.hasOwnProperty(k)`. -/
def hasOwnB (v : JSVal) (k : String) : Bool :=
  match v with
  | .vObj fs => (fieldsLookup fs k).isSome
  | _ => false

/-- `base.propertyIsEnumerable(k)`. -/
def isEnumB (v : JSVal) (k : String) : Bool :=
  match v with
  | .vObj fs =>
    match fieldsLookup fs k with
    | some f => f.enumerable
    | none => false
  | _ => false

/-- Own enumerable keys in insertion order (`Object.keys`).  Spreading
`null`, `undefined` or a primitive contributes no keys. -/
def enumKeys : JSVal → List String
  | .vObj fs => (fs.filter (fun f => f.enumerable)).map (fun f => f.key)
  | _ => []

/-- Duplicate removal keeping first occurrences (with an accumulator of
already-seen keys), as object keys collapse when two spreads are
merged. -/
def dedupAux : List String → List String → List String
  | [], _ => []
  | k :: ks, seen => if seen.contains k then dedupAux ks seen else k :: dedupAux ks (k :: seen)

def dedupKeys (l : List String) : List String := dedupAux l []

/-- The key list `Object.keys({...oldObj, ...newObj})` iterated by
`applyChange` line 172: the first operand's enumerable keys in order, then
the second's, duplicates collapsed to their first position. -/
def unionKeys (oldObj newObj : JSVal) : List String :=
  dedupKeys (enumKeys oldObj ++ enumKeys newObj)

/-- Strict-mode assignment `base[k] = v` on a field list: an absent key
creates a fresh enumerable configurable writable data property; a data
property must be writable; an accessor must have a setter (its slot is
written).  `none` models the thrown TypeError. -/
def assignFields : List (Fld JSVal) → String → JSVal → Option (List (Fld JSVal))
  | [], k, v => some [⟨k, true, true, .data v true⟩]
  | f :: fs, k, v =>
    if f.key == k then
      match f.kind with
      | .data _ w => if w then some ({ f with kind := .data v w } :: fs) else none
      | .accessor hg hs _ => if hs then some ({ f with kind := .accessor hg hs v } :: fs) else none
    else (assignFields fs k v).map (f :: ·)

/-- Strict-mode assignment `base[k] = v`; assigning to a primitive or
`null`/`undefined` base throws. -/
def jsAssign : JSVal → String → JSVal → Option JSVal
  | .vObj fs, k, v => (assignFields fs k v).map .vObj
  | _, _, _ => none

/-- `delete base[k]` on a configurable property: the field is removed
(a JavaScript object has at most one own property per key, so removing
every occurrence from the field list is the faithful embedding). -/
def deleteFields (fs : List (Fld JSVal)) (k : String) : List (Fld JSVal) :=
  fs.filter (fun f => !(f.key == k))

def jsDelete : JSVal → String → JSVal
  | .vObj fs, k => .vObj (deleteFields fs k)
  | v, _ => v

/-- `Object.defineProperty(base, k, {enumerable: e})` on an existing
configurable property: only the enumerable flag changes. -/
def setEnumFields : List (Fld JSVal) → String → Bool → List (Fld JSVal)
  | [], _, _ => []
  | f :: fs, k, e => if f.key == k then { f with enumerable := e } :: fs else f :: setEnumFields fs k e

def jsSetEnum : JSVal → String → Bool → JSVal
  | .vObj fs, k, e => .vObj (setEnumFields fs k e)
  | v, _, _ => v

/-- Invoke the setter of an accessor property with `undefined`
(`descriptor.set(undefined)`, src/src/observer.js line 211): the backing
slot is cleared; other kinds are unchanged (the caller has checked
`descriptor.set`). -/
def clearSlotFields : List (Fld JSVal) → String → List (Fld JSVal)
  | [], _ => []
  | f :: fs, k =>
    if f.key == k then
      (match f.kind with
       | .accessor hg hs _ => { f with kind := .accessor hg hs .vUndef }
       | other => { f with kind := other }) :: fs
    else f :: clearSlotFields fs k

def jsClearSlot : JSVal → String → JSVal
  | .vObj fs, k => .vObj (clearSlotFields fs k)
  | v, _ => v

/-- In-place mutation of the object stored under a key: the functional
counterpart of `applyChange` recursing into `oldObj[key]` and mutating
that object.  For a data property the value is replaced; for an accessor
with a getter the slot (which the getter returned) is replaced. -/
def setValFields : List (Fld JSVal) → String → JSVal → List (Fld JSVal)
  | [], _, _ => []
  | f :: fs, k, v =>
    if f.key == k then
      (match f.kind with
       | .data _ w => { f with kind := .data v w }
       | .accessor hg hs _ => { f with kind := .accessor hg hs v }) :: fs
    else f :: setValFields fs k v

def jsSetVal : JSVal → String → JSVal → JSVal
  | .vObj fs, k, v => .vObj (setValFields fs k v)
  | v, _, _ => v

/-- Reports sent to the logging collaborator by `applyChange`
(src/src/observer.js lines 180, 191, 201, 216, 233, 238). -/
inductive LogEvent where
  | lockedErr (key : String)
  | addErr (key : String)
  | added (path : String) (value : JSVal)
  | removed (path : String)
  | updated (path : String) (value : JSVal)
  | updateErr (key : String)

/-- The only uncaught error `applyChange` can produce: a TypeError from
reading a property of `null`/`undefined`. -/
inductive JSErr where
  | typeError

/-- Result of `applyChange`: either normal completion, or an escaped
exception; in both cases we keep the (partially) mutated tree — in
JavaScript the caller still holds the in-place-mutated object — and the
log reports issued so far. -/
inductive ACResult where
  | ok (tree : JSVal) (logs : List LogEvent)
  | thrown (err : JSErr) (tree : JSVal) (logs : List LogEvent)

/-- Result of processing a single key of the `forEach` body: continue with
the next key (a `return` inside the callback), or abort the whole walk
(an uncaught throw). -/
inductive StepRes where
  | cont (acc : JSVal) (logs : List LogEvent)
  | halt (err : JSErr) (acc : JSVal) (logs : List LogEvent)

theorem sizeOf_fieldsLookup {fs : List (Fld JSVal)} {k : String} {f : Fld JSVal}
    (h : fieldsLookup fs k = some f) : sizeOf f < sizeOf fs := by
  induction fs with
  | nil => simp [fieldsLookup] at h
  | cons g gs ih =>
    rw [fieldsLookup] at h
    by_cases hk : g.key == k
    · simp [hk] at h
      subst h
      simp
      omega
    · simp [hk] at h
      have := ih h
      simp
      omega

theorem sizeOf_readVal (f : Fld JSVal) : sizeOf f.readVal < sizeOf f := by
  cases f with
  | mk k e c kind =>
    cases kind with
    | data v w =>
      simp [Fld.readVal]
      omega
    | accessor hg hs s =>
      simp [Fld.readVal]
      by_cases h : hg = true
      · simp [h]
        omega
      · simp [h]
        have h1 : sizeOf JSVal.vUndef = 1 := rfl
        have h2 : 1 ≤ sizeOf k := by cases k; simp
        omega

theorem sizeOf_readProp {v : JSVal} {k : String} {w : JSVal}
    (h : readProp v k = some w) (hobj : w.typeofObject = true) : sizeOf w < sizeOf v := by
  cases v with
  | vObj fs =>
    rw [readProp] at h
    cases hl : fieldsLookup fs k with
    | some f =>
      simp [hl] at h
      subst h
      have h1 := sizeOf_fieldsLookup hl
      have h2 := sizeOf_readVal f
      simp
      omega
    | none =>
      simp [hl] at h
      subst h
      simp [JSVal.typeofObject] at hobj
  | vNull => simp [readProp] at h
  | vUndef => simp [readProp] at h
  | vBool b => simp [readProp] at h; subst h; simp [JSVal.typeofObject] at hobj
  | vNum n => simp [readProp] at h; subst h; simp [JSVal.typeofObject] at hobj
  | vStr s => simp [readProp] at h; subst h; simp [JSVal.typeofObject] at hobj
  | vFun i => simp [readProp] at h; subst h; simp [JSVal.typeofObject] at hobj

/-- The add branch of `applyChange` (lines 183-202): assign, report a
failure on a caught throw, otherwise force the property visible and
report an `added` event. -/
def addBranch (keyPath k : String) (newV : JSVal) (acc : JSVal) : StepRes :=
  match jsAssign acc k newV with
  | none => .cont acc [.addErr k]
  | some acc1 =>
    .cont (if hasOwnB acc1 k then jsSetEnum acc1 k true else acc1)
      [.added (keyPath ++ k) newV]

/-- The remove branch of `applyChange` (lines 203-217): a truthy
`descriptor.value` is deleted outright; otherwise the setter (when
present) is invoked with `undefined` and the property is hidden; a
`removed` event is reported. -/
def removeBranch (keyPath k : String) (f : Fld JSVal) (acc : JSVal) : StepRes :=
  if f.descValue.truthy then .cont (jsDelete acc k) [.removed (keyPath ++ k)]
  else
    .cont (jsSetEnum
        (match f.kind with
         | .accessor _ hs _ => if hs then jsClearSlot acc k else acc
         | _ => acc) k false)
      [.removed (keyPath ++ k)]

/-- The update branch of `applyChange` (lines 225-239): assign, report a
failure on a caught throw, otherwise report an `updated` event. -/
def updateBranch (keyPath k : String) (newV : JSVal) (acc : JSVal) : StepRes :=
  match jsAssign acc k newV with
  | none => .cont acc [.updateErr k]
  | some acc1 => .cont acc1 [.updated (keyPath ++ k) newV]

mutual

/-- One iteration of the `forEach` body of `applyChange`
(src/src/observer.js lines 172-240), for the key `k`.  Branch conditions
are read from the original `oldObj`: this is faithful because the iterated
key list is duplicate-free and every branch mutates only the field of its
own key, so at the time key `k` is visited the current object agrees with
the original at `k`.  Mutations are applied to the accumulator `acc`. -/
def processKey (oldObj newObj : JSVal) (keyPath : String) (k : String) (acc : JSVal) : StepRes :=
  match hn : readProp newObj k with
  | none => .halt .typeError acc []
  | some newV =>
    match ho : readProp oldObj k with
    | none => .halt .typeError acc []
    | some oldV =>
      -- Abort if values are the same
      if newV.strictEq oldV then .cont acc []
      else
        match objLookup oldObj k with
        | some f =>
          if !f.configurable then
            -- locked property: report only when newObj supplies the key
            .cont acc (if hasOwnB newObj k then [.lockedErr k] else [])
          else if !f.enumerable then
            -- add properties not existing/visible in oldObj
            addBranch keyPath k newV acc
          else if !hasOwnB newObj k then
            -- delete/hide properties not existing in newObj
            removeBranch keyPath k f acc
          else if hrec : newV.typeofObject && oldV.typeofObject then
            -- combine objects' properties
            match applyChange oldV newV (k ++ "/") with
            | .ok t l => .cont (jsSetVal acc k t) l
            | .thrown e t l => .halt e (jsSetVal acc k t) l
          else
            -- update property with value from newObj
            updateBranch keyPath k newV acc
        | none =>
          -- no descriptor: propertyIsEnumerable is false, add branch
          addBranch keyPath k newV acc
termination_by (sizeOf oldObj + sizeOf newObj, 0)
decreasing_by
  apply Prod.Lex.left
  have h1 : sizeOf oldV < sizeOf oldObj := by
    apply sizeOf_readProp ho
    revert hrec
    cases oldV.typeofObject <;> simp
  have h2 : sizeOf newV < sizeOf newObj := by
    apply sizeOf_readProp hn
    revert hrec
    cases newV.typeofObject <;> simp
  omega

/-- The `forEach` fold of `applyChange` over the snapshot of merged keys:
each key is processed in order, accumulating the mutated tree and the log
reports; an uncaught throw aborts the remaining keys. -/
def applyKeys (oldObj newObj : JSVal) (keyPath : String) (keys : List String)
    (acc : JSVal) (logs : List LogEvent) : ACResult :=
  match keys with
  | [] => .ok acc logs
  | k :: ks =>
    match processKey oldObj newObj keyPath k acc with
    | .cont acc1 l => applyKeys oldObj newObj keyPath ks acc1 (logs ++ l)
    | .halt e acc1 l => .thrown e acc1 (logs ++ l)
termination_by (sizeOf oldObj + sizeOf newObj, 1 + keys.length)
decreasing_by
  · apply Prod.Lex.right
    omega
  · apply Prod.Lex.right
    simp only [List.length_cons]
    omega

/-- `exports.applyChange` (src/src/observer.js lines 171-241): update
changed values from `newObj` in `oldObj` including child properties. -/
def applyChange (oldObj newObj : JSVal) (keyPath : String) : ACResult :=
  applyKeys oldObj newObj keyPath (unionKeys oldObj newObj) oldObj []
termination_by (sizeOf oldObj + sizeOf newObj, 2 + (unionKeys oldObj newObj).length)
decreasing_by
  apply Prod.Lex.right
  omega

end

/-! ## The producer side: `DeepObserve` and `observe`

The diff-aggregation machinery of src/src/observer.js lines 9-166 works
through JavaScript reference aliasing: the per-turn diff is a graph of
plain objects (`this.top.store`, the per-node `tmp` staging objects, and —
after a wholesale replacement — the real data objects themselves), and the
per-node `store` fields point into that graph.  We therefore embed it
operationally, with an explicit heap of objects addressed by `Nat`.

`new DeepObserve(callback)` returns `this.top` (the constructor returns an
object, overriding `this`), so `setter.deepObserver` in `observe` is the
top node; `setter.deepObserver.store = value` writes the top node's own
`store`, which is exactly what the next flush delivers. -/

/-- A heap value: a primitive, or a reference to a heap object. -/
inductive HV where
  | hNull
  | hUndef
  | hBool (b : Bool)
  | hNum (n : Int)
  | hStr (s : String)
  | hObj (addr : Nat)

/-- JavaScript truthiness of a heap value. -/
def hvTruthy : HV → Bool
  | .hNull => false
  | .hUndef => false
  | .hBool b => b
  | .hNum n => n != 0
  | .hStr s => s != ""
  | .hObj _ => true

/-- Whether `isObj` (src/isObj.js, modelled from the spec's "non-null
object") holds of a heap value. -/
def isObjHV : HV → Bool
  | .hObj _ => true
  | _ => false

/-- The object heap: each address maps to an ordered field list. -/
structure Heap where
  objs : List (Nat × List (String × HV))
  next : Nat

/-- Allocate a fresh empty object. -/
def heapAlloc (h : Heap) : Heap × Nat :=
  ({ objs := h.objs ++ [(h.next, [])], next := h.next + 1 }, h.next)

/-- Own fields of the object at an address. -/
def heapFields (h : Heap) (a : Nat) : List (String × HV) :=
  match h.objs.find? (fun e => e.1 == a) with
  | some e => e.2
  | none => []

/-- Property read `obj[k]` on the heap (`none` = key absent, i.e.
`undefined`). -/
def heapGet (h : Heap) (a : Nat) (k : String) : Option HV :=
  match (heapFields h a).find? (fun e => e.1 == k) with
  | some e => some e.2
  | none => none

def upsertField : List (String × HV) → String → HV → List (String × HV)
  | [], k, v => [(k, v)]
  | e :: es, k, v => if e.1 == k then (k, v) :: es else e :: upsertField es k v

/-- Property write `obj[k] = v` on the heap (plain data objects:
insertion order kept, new keys appended). -/
def heapSet (h : Heap) (a : Nat) (k : String) (v : HV) : Heap :=
  { h with objs := h.objs.map (fun e => if e.1 == a then (e.1, upsertField e.2 k v) else e) }

/-- Property deletion `delete obj[k]` on the heap. -/
def heapDel (h : Heap) (a : Nat) (k : String) : Heap :=
  { h with objs := h.objs.map (fun e => if e.1 == a then (e.1, e.2.filter (fun p => p.1 ≠ k)) else e) }

/-- One `DeepObserve` node: its staging object `tmp` (an address, assigned
a fresh `{}` on every `get` that reaches the node), its `store` pointer
into the in-flight diff (`none` = never assigned / `undefined`), its
cached proxy (the address of the object the proxy wraps), and its child
nodes.  The top node has no `tmp` and owns the turn's `store`. -/
inductive ONode where
  | mk (tmp : Option Nat) (store : Option HV) (proxy : Option Nat)
      (children : List (String × ONode))

def ONode.tmp : ONode → Option Nat
  | .mk t _ _ _ => t

def ONode.store : ONode → Option HV
  | .mk _ s _ _ => s

def ONode.proxy : ONode → Option Nat
  | .mk _ _ p _ => p

def ONode.children : ONode → List (String × ONode)
  | .mk _ _ _ c => c

def ONode.setTmp : ONode → Option Nat → ONode
  | .mk _ s p c, t => .mk t s p c

def ONode.setStore : ONode → Option HV → ONode
  | .mk t _ p c, s => .mk t s p c

def ONode.setProxy : ONode → Option Nat → ONode
  | .mk t s _ c, p => .mk t s p c

def ONode.setChildren : ONode → List (String × ONode) → ONode
  | .mk t s p _, c => .mk t s p c

def childLookup : List (String × ONode) → String → Option ONode
  | [], _ => none
  | e :: es, k => if e.1 == k then some e.2 else childLookup es k

def upsertChild : List (String × ONode) → String → ONode → List (String × ONode)
  | [], k, c => [(k, c)]
  | e :: es, k, c => if e.1 == k then (k, c) :: es else e :: upsertChild es k c

def ONode.withChild (nd : ONode) (k : String) (c : ONode) : ONode :=
  nd.setChildren (upsertChild nd.children k c)

/-- The mutable fields the shared `callback` function object carries
between traversals (`callback.key`, `callback.store`, `callback.tmp`). -/
structure CbState where
  key : Option String
  store : Option HV
  tmp : Option Nat

/-- The state of one installed `observe` binding: the heap, the backing
slot of the synthesized accessor pair (`descriptor.value`), the bound
property's enumerable flag, the top `DeepObserve` node, the shared
`callback.wait` flag, the `callback.*` staging fields, and the list of
values the user callback has been invoked with (snapshots, oldest
first). -/
structure ObsState where
  heap : Heap
  bindingValue : HV
  bindingEnumerable : Bool
  top : ONode
  wait : Bool
  cb : CbState
  calls : List JSVal

/-- Dereference a heap value into a pure `JSVal` tree (plain data fields),
with fuel bounding the depth; the fuel `heap size + 1` suffices for any
acyclic heap. -/
def readbackF : Nat → Heap → HV → JSVal
  | 0, _, _ => (.vUndef)
  | _ + 1, _, .hNull => .vNull
  | _ + 1, _, .hUndef => (.vUndef)
  | _ + 1, _, .hBool b => .vBool b
  | _ + 1, _, .hNum n => .vNum n
  | _ + 1, _, .hStr s => .vStr s
  | n + 1, h, .hObj a =>
    .vObj ((heapFields h a).map (fun e => ⟨e.1, true, true, .data (readbackF n h e.2) true⟩))

/-- Snapshot of a heap value as seen by the callback at invocation time. -/
def snapshot (h : Heap) (v : HV) : JSVal :=
  readbackF (h.objs.length + 1) h v

/-- `DeepObserve.prototype.nextCallback` (src/src/observer.js lines
38-60), run on a node: reset the node's cached proxy, mark a flush
pending, and return the address of the diff object this node's writes go
into — the node's own truthy `store`, or (after committing the staged
`callback.tmp` into `callback.store[callback.key]`) the node's `tmp`.
`none` models the unreachable JavaScript failure modes (property write on
a primitive, commit with unset callback fields). -/
def nextCallbackStep (st : ObsState) (nd : ONode) : Option (ObsState × ONode × Nat) :=
  let nd1 := nd.setProxy none
  let st1 := { st with wait := true }
  let commit : Option (ObsState × ONode × Nat) :=
    match st1.cb.key, st1.cb.store, st1.cb.tmp with
    | some ck, some (.hObj ca), some ct =>
      match nd1.tmp with
      | some ta => some ({ st1 with heap := heapSet st1.heap ca ck (.hObj ct) }, nd1, ta)
      | none => none
    | _, _, _ => none
  match nd.store with
  | some sv =>
    if hvTruthy sv then
      match sv with
      | .hObj a => some (st1, nd1, a)
      | _ => none
    else commit
  | none => commit

/-- A mutation applied at the end of a traversal: a proxy `set` trap with
a value, or a `deleteProperty` trap. -/
inductive MutAct where
  | setAct (v : HV)
  | delAct

/-- The `set` / `deleteProperty` traps (src/src/observer.js lines 90-101)
at a node whose proxy wraps the object at `t`: write the value (or the
`null` deletion sentinel) into the diff object `nextCallback` returns,
then write/delete the target property. -/
def applyTrap (st : ObsState) (nd : ONode) (t : Nat) (k : String) (act : MutAct) :
    Option (ObsState × ONode) := do
  let (st1, nd1, da) ← nextCallbackStep st nd
  match act with
  | .setAct v =>
    let h1 := heapSet st1.heap da k v
    some ({ st1 with heap := heapSet h1 t k v }, nd1)
  | .delAct =>
    let h1 := heapSet st1.heap da k .hNull
    some ({ st1 with heap := heapDel h1 t k }, nd1)

/-- The `get` trap (src/src/observer.js lines 63-87) at a node whose
proxy wraps the object at `t`, for a key whose value is an object: ensure
the child node exists, give it a fresh `tmp` staging object, wire the
staging (through the node's `store` when that is truthy, otherwise by
linking the child's `tmp` into this node's `tmp`), and return the child
with the address its (possibly cached, possibly stale) proxy wraps.
`none` when `target[k]` is not an object — the real trap returns the
value verbatim and no deeper traversal is possible. -/
def getStep (st : ObsState) (nd : ONode) (t : Nat) (k : String) :
    Option (ObsState × ONode × Nat) :=
  match heapGet st.heap t k with
  | some (.hObj va) =>
    let c0 := (childLookup nd.children k).getD (.mk none none none [])
    let (h1, ta) := heapAlloc st.heap
    let c1 := c0.setTmp (some ta)
    let afterStage : Option (ObsState × ONode) :=
      match nd.store with
      | some sv =>
        if hvTruthy sv then
          match sv with
          | .hObj sa =>
            some ({ st with heap := h1, cb := ⟨some k, some sv, some ta⟩ },
                  c1.setStore (heapGet h1 sa k))
          | _ => none
        else
          match nd.tmp with
          | some nta => some ({ st with heap := heapSet h1 nta k (.hObj ta) }, c1)
          | none => none
      | none =>
        match nd.tmp with
        | some nta => some ({ st with heap := heapSet h1 nta k (.hObj ta) }, c1)
        | none => none
    match afterStage with
    | some (st1, c2) =>
      match c2.proxy with
      | some pa => some (st1, c2, pa)
      | none => some (st1, (c2.setChildren []).setProxy (some va), va)
    | none => none
  | _ => none

/-- Execute one mutation whose full path expression re-traverses proxies
from the node `nd` (wrapping the object at `t`): `get` traps along the
path prefix, then the final trap.  Returns the updated state and node. -/
def runPath (st : ObsState) (nd : ONode) (t : Nat) (path : List String) (act : MutAct) :
    Option (ObsState × ONode) :=
  match path with
  | [] => none
  | [k] => applyTrap st nd t k act
  | k :: rest => do
    let (st1, c, ct) ← getStep st nd t k
    let (st2, c2) ← runPath st1 c ct rest act
    some (st2, nd.withChild k c2)

/-- One synchronous mutation through the observed tree, written as a full
path expression from the bound property (e.g. `obj.state.a.b = v`): the
binding getter runs `topGetter` (src/src/observer.js lines 23-35) giving
the top proxy — creating it, and resetting the top's children, when no
cached proxy exists — and the traps run along the path. -/
def mutate (st : ObsState) (path : List String) (act : MutAct) : Option ObsState := do
  match st.bindingValue with
  | .hObj a0 =>
    let (top1, t) :=
      match st.top.proxy with
      | some pa => (st.top, pa)
      | none => ((st.top.setChildren []).setProxy (some a0), a0)
    let (st1, top2) ← runPath { st with top := top1 } top1 t path act
    some { st1 with top := top2 }
  | _ => none

/-- The `process.nextTick` body scheduled by `nextCallback` (lines
45-49): when a flush is pending, the callback is invoked with
`this.top.store`, the store is reset to a fresh empty object and the wait
flag cleared.  When no flush is pending this is a no-op (no tick was
scheduled). -/
def tick (st : ObsState) : ObsState :=
  if st.wait then
    match st.top.store with
    | some sv =>
      let (h1, a1) := heapAlloc st.heap
      { st with heap := h1, top := st.top.setStore (some (.hObj a1)), wait := false,
                calls := st.calls ++ [snapshot st.heap sv] }
    | none => st
  else st

/-- Result of reading the bound property: a scalar passed through
verbatim, or the tracked proxy view (wrapping the object at the given
address). -/
inductive GetRes where
  | scalar (v : HV)
  | proxyView (target : Nat)

/-- The getter `observe` installs (src/src/observer.js lines 160-162):
`topGetter(descriptor.get())` — scalars verbatim, objects through the top
node's cached-or-new proxy. -/
def observeGet (st : ObsState) : ObsState × GetRes :=
  match st.bindingValue with
  | .hObj a0 =>
    match st.top.proxy with
    | some pa => (st, .proxyView pa)
    | none => ({ st with top := (st.top.setChildren []).setProxy (some a0) }, .proxyView a0)
  | v => (st, .scalar v)

/-- The setter `observe` installs (lines 125-153): the middleware makes
the property enumerable (the `propertyIsEnumerable()` call passes no key,
so the branch always runs), drops the cached top proxy, then either
stages the raw value as the top node's `store` for the pending flush, or
invokes the callback synchronously with the raw value; finally the
original setter stores the value. -/
def observeSet (st : ObsState) (v : HV) : ObsState :=
  let st1 := { st with bindingEnumerable := true }
  let st2 :=
    match st1.top.proxy with
    | some _ => { st1 with top := st1.top.setProxy none }
    | none => st1
  let st3 :=
    if st2.wait then { st2 with top := st2.top.setStore (some v) }
    else { st2 with calls := st2.calls ++ [snapshot st2.heap v] }
  { st3 with bindingValue := v }

/-! ## The event-registration surface: `Server.prototype.on` -/

/-- Whether `typeof v === 'string'`. -/
def isStringV : JSVal → Bool
  | .vStr _ => true
  | _ => false

/-- Whether `typeof v === 'function'`. -/
def isFunctionV : JSVal → Bool
  | .vFun _ => true
  | _ => false

/-- One trigger stored in `this.triggers` (src/src/server.js lines
201-216): its listener list (callback identities) and whether a one-shot
`trigger.callback` is currently stored. -/
structure STrigger where
  listeners : List Nat
  hasStored : Bool

/-- The part of the server state `Server.prototype.on` touches.
`ranStored` records the events whose stored one-shot callback has been
run (the callback's own effects happen in collaborator code outside this
core). -/
structure ServerSt where
  triggers : List (String × STrigger)
  ranStored : List String

def triggersLookup : List (String × STrigger) → String → Option STrigger
  | [], _ => none
  | e :: es, k => if e.1 == k then some e.2 else triggersLookup es k

def triggersUpsert : List (String × STrigger) → String → STrigger → List (String × STrigger)
  | [], k, t => [(k, t)]
  | e :: es, k, t => if e.1 == k then (k, t) :: es else e :: triggersUpsert es k t

/-- `Server.prototype.on` (src/src/server.js lines 219-235): throw a
TypeError for a non-string event or non-function callback; silently
return for an unknown event; otherwise push the callback onto the
trigger's listeners and run-and-clear the stored one-shot callback when
this is the first listener registration with one pending. -/
def serverOn (st : ServerSt) (event cb : JSVal) : Except JSErr ServerSt :=
  if !isStringV event then .error .typeError
  else if !isFunctionV cb then .error .typeError
  else
    match event, cb with
    | .vStr ev, .vFun cid =>
      match triggersLookup st.triggers ev with
      | none => .ok st
      | some tr =>
        let tr1 : STrigger := { tr with listeners := tr.listeners ++ [cid] }
        if tr1.hasStored then
          .ok { triggers := triggersUpsert st.triggers ev { tr1 with hasStored := false },
                ranStored := st.ranStored ++ [ev] }
        else
          .ok { st with triggers := triggersUpsert st.triggers ev tr1 }
    | _, _ => .error .typeError

/-! ## Helper notions used by the theorem statements -/

/-- The (possibly partial) tree a reconciliation result holds. -/
def ACResult.tree : ACResult → JSVal
  | .ok t _ => t
  | .thrown _ t _ => t

/-- The log reports a reconciliation result holds. -/
def ACResult.logs : ACResult → List LogEvent
  | .ok _ l => l
  | .thrown _ _ l => l

/-- Whether the reconciliation ended with an uncaught exception. -/
def ACResult.isThrown : ACResult → Bool
  | .ok _ _ => false
  | .thrown _ _ _ => true

/-- Key uniqueness of a field list (JavaScript objects cannot carry two
own properties with the same key). -/
def fieldsNodup : List (Fld JSVal) → Bool
  | [] => true
  | f :: fs => fs.all (fun g => g.key ≠ f.key) && fieldsNodup fs

mutual

/-- A "plain tree": every field is an enumerable, configurable, writable
data property with distinct keys, and every leaf value is a truthy
primitive (no accessors, no locked or hidden fields, no
`null`/`undefined`/falsy leaves).  These are the trees the round-trip
property of the spec can hold for. -/
def plainV : JSVal → Bool
  | .vObj fs => fieldsNodup fs && plainFields fs
  | .vNull => false
  | .vUndef => false
  | v => v.truthy
termination_by v => sizeOf v

def plainFields : List (Fld JSVal) → Bool
  | [] => true
  | f :: fs => plainField f && plainFields fs
termination_by fs => sizeOf fs
decreasing_by
  all_goals simp
  all_goals omega

def plainField : Fld JSVal → Bool
  | ⟨_, _, _, .accessor _ _ _⟩ => false
  | ⟨_, e, c, .data v w⟩ => e && c && w && v.truthy && plainV v
termination_by f => sizeOf f
decreasing_by
  all_goals simp
  all_goals omega

end

mutual

/-- Observable equivalence of two values: primitives and functions by
strict equality; objects by having the same own keys, pointwise equal
enumerable flags and recursively equivalent read values (key order and
data-versus-accessor representation are irrelevant, matching the spec's
"ordered-irrelevant mapping"). -/
def valEquiv : JSVal → JSVal → Bool
  | .vObj fs, .vObj gs =>
    fieldsSubEquiv fs gs && gs.all (fun g => (fieldsLookup fs g.key).isSome)
  | a, b => a.strictEq b
termination_by a _ => sizeOf a

def fieldsSubEquiv : List (Fld JSVal) → List (Fld JSVal) → Bool
  | [], _ => true
  | f :: fs, gs =>
    (match fieldsLookup gs f.key with
     | some g => f.enumerable == g.enumerable && valEquiv f.readVal g.readVal
     | none => false) && fieldsSubEquiv fs gs
termination_by fs _ => sizeOf fs
decreasing_by
  all_goals have h2 := sizeOf_readVal f
  all_goals simp
  all_goals omega

end

/-- Total property read for statements: the read value of the own
property, `undefined` when absent. -/
def propVal (v : JSVal) (k : String) : JSVal :=
  match objLookup v k with
  | some f => f.readVal
  | none => (.vUndef)

/-- An enumerable, configurable, writable data property — the shape
`applyChange` itself creates for added keys and `readbackF` produces for
delivered diff snapshots. -/
def plainFld (k : String) (v : JSVal) : Fld JSVal :=
  ⟨k, true, true, .data v true⟩

/-! ## Concrete instances used by the claims -/

/-- Reconciliation target `{a: {b: 1}}`, generalized over the leaf. -/
def c1TargetW (w : JSVal) : JSVal :=
  .vObj [plainFld "a" (.vObj [plainFld "b" w])]

/-- The deletion diff `{a: {b: null}}` the observer produces for
`delete state.a.b`. -/
def c1Diff : JSVal :=
  .vObj [plainFld "a" (.vObj [plainFld "b" .vNull])]

/-- A freshly installed observation of the value `{a: {b: 1}}`:
object 0 is the observed root, object 1 its nested `a`, object 2 the top
node's empty diff store. -/
def c1Obs : ObsState :=
  { heap := ⟨[(0, [("a", .hObj 1)]), (1, [("b", .hNum 1)]), (2, [])], 3⟩,
    bindingValue := .hObj 0, bindingEnumerable := true,
    top := .mk none (some (.hObj 2)) none [],
    wait := false, cb := ⟨none, none, none⟩, calls := [] }

/-- The callback invocations produced by `delete state.a.b` on `c1Obs`
followed by the scheduled tick. -/
def c1Delivered : List JSVal :=
  match mutate c1Obs ["a", "b"] .delAct with
  | some s => (tick s).calls
  | none => []

/-- A freshly installed observation of the value `{a: {b: {}}}`:
object 0 is the observed root, 1 its `a`, 2 its `a.b`, 3 the top node's
empty diff store. -/
def obsInitDeep : ObsState :=
  { heap := ⟨[(0, [("a", .hObj 1)]), (1, [("b", .hObj 2)]), (2, []), (3, [])], 4⟩,
    bindingValue := .hObj 0, bindingEnumerable := true,
    top := .mk none (some (.hObj 3)) none [],
    wait := false, cb := ⟨none, none, none⟩, calls := [] }

/-- Failing run for the coalescing claim: turn 1 performs
`state.a.b.c = 1; state.a.b.d = 2`, the tick flushes, turn 2 performs the
single mutation `state.a.b.e = 9`, the tick flushes again. -/
def c2Calls : List JSVal :=
  match (do
    let s1 ← mutate obsInitDeep ["a", "b", "c"] (.setAct (.hNum 1))
    let s2 ← mutate s1 ["a", "b", "d"] (.setAct (.hNum 2))
    let s3 ← mutate (tick s2) ["a", "b", "e"] (.setAct (.hNum 9))
    some (tick s3) : Option ObsState) with
  | some s => s.calls
  | none => []

/-- Failing run for the sparsity claim: turn 1 performs
`state.a.b.x = 1; state.a.b.y = 2`, the tick flushes, turn 2 performs the
single mutation `state.a.b.c = 3` to the nested path `a.b.c`. -/
def c3Calls : List JSVal :=
  match (do
    let s1 ← mutate obsInitDeep ["a", "b", "x"] (.setAct (.hNum 1))
    let s2 ← mutate s1 ["a", "b", "y"] (.setAct (.hNum 2))
    let s3 ← mutate (tick s2) ["a", "b", "c"] (.setAct (.hNum 3))
    some (tick s3) : Option ObsState) with
  | some s => s.calls
  | none => []

/-- The same single mutation `state.a.b.c = 3` performed as the first
turn of a fresh observer. -/
def c3FreshCalls : List JSVal :=
  match mutate obsInitDeep ["a", "b", "c"] (.setAct (.hNum 3)) with
  | some s => (tick s).calls
  | none => []

/-- Reconciliation input for the visibility-toggling counterexample:
`previous = {y: 0}` with `y` a plain enumerable writable data field. -/
def c5Prev : JSVal := .vObj [plainFld "y" (.vNum 0)]

/-- Nested trees `{a: {b: {c: 1}}}` / `{a: {b: {c: 2}}}` exhibiting the
dropped path prefix at depth two. -/
def c6Old : JSVal := .vObj [plainFld "a" (.vObj [plainFld "b" (.vObj [plainFld "c" (.vNum 1)])])]

def c6New : JSVal := .vObj [plainFld "a" (.vObj [plainFld "b" (.vObj [plainFld "c" (.vNum 2)])])]

/-- Round-trip counterexample trees: `T = {y: 0}`, `T2 = {}`,
`T3 = {y: 0}` (a full snapshot, no locked fields). -/
def c7T : JSVal := .vObj [plainFld "y" (.vNum 0)]

def c7T2 : JSVal := .vObj []

def c7T3 : JSVal := .vObj [plainFld "y" (.vNum 0)]

/-- The tree after `applyChange(T, T2)` then `applyChange(·, T3)`. -/
def c7TwoStep : JSVal := (applyChange (applyChange c7T c7T2 "").tree c7T3 "").tree

/-- The tree after `applyChange(T, T3)` directly. -/
def c7Direct : JSVal := (applyChange c7T c7T3 "").tree

/-- Totality counterexample input: `previous = {a: {}}` — the nested
object has no own enumerable keys. -/
def c10Prev : JSVal := .vObj [plainFld "a" (.vObj [])]

def c10In : JSVal := .vObj [plainFld "a" .vNull]

/-- The accumulated tree of a single-key step result. -/
def StepRes.acc : StepRes → JSVal
  | .cont a _ => a
  | .halt _ a _ => a

/-! ## Helper lemmas: key-locality of the per-key mutations

`applyChange` iterates a duplicate-free key list and every branch of its
body mutates only the field of its own key; the following lemmas make
that precise, so that per-key facts can be transported through the
`forEach` fold. -/

theorem fieldsLookup_key {fs : List (Fld JSVal)} {k : String} {f : Fld JSVal}
    (h : fieldsLookup fs k = some f) : f.key = k := by
  induction fs with
  | nil => simp [fieldsLookup] at h
  | cons g gs ih =>
    rw [fieldsLookup] at h
    by_cases hk : g.key == k
    · simp [hk] at h
      subst h
      exact eq_of_beq hk
    · simp [hk] at h
      exact ih h

theorem fieldsLookup_mem {fs : List (Fld JSVal)} {k : String} {f : Fld JSVal}
    (h : fieldsLookup fs k = some f) : f ∈ fs := by
  induction fs with
  | nil => simp [fieldsLookup] at h
  | cons g gs ih =>
    rw [fieldsLookup] at h
    by_cases hk : g.key == k
    · simp [hk] at h
      subst h
      exact List.mem_cons_self _ _
    · simp [hk] at h
      exact List.mem_cons_of_mem _ (ih h)

theorem dedupAux_not_seen {k : String} :
    ∀ (l seen : List String), k ∈ dedupAux l seen → seen.contains k = false := by
  intro l
  induction l with
  | nil => intro seen h; simp [dedupAux] at h
  | cons a ks ih =>
    intro seen h
    rw [dedupAux] at h
    by_cases ha : seen.contains a = true
    · rw [if_pos ha] at h
      exact ih seen h
    · rw [if_neg ha] at h
      rcases List.mem_cons.mp h with h1 | h1
      · subst h1
        simpa using ha
      · have h2 := ih (a :: seen) h1
        rw [List.contains_cons] at h2
        exact (Bool.or_eq_false_iff.mp h2).2

theorem dedupAux_mem_of {k : String} :
    ∀ (l seen : List String), k ∈ l → seen.contains k = false → k ∈ dedupAux l seen := by
  intro l
  induction l with
  | nil => intro seen h _; simp at h
  | cons a ks ih =>
    intro seen h hseen
    rw [dedupAux]
    by_cases ha : seen.contains a = true
    · rw [if_pos ha]
      rcases List.mem_cons.mp h with h1 | h1
      · subst h1
        rw [ha] at hseen
        simp at hseen
      · exact ih seen h1 hseen
    · rw [if_neg ha]
      rcases List.mem_cons.mp h with h1 | h1
      · subst h1
        exact List.mem_cons_self _ _
      · by_cases hk : k = a
        · subst hk
          exact List.mem_cons_self _ _
        · refine List.mem_cons_of_mem _ (ih (a :: seen) h1 ?_)
          rw [List.contains_cons, Bool.or_eq_false_iff]
          exact ⟨beq_eq_false_iff_ne.mpr hk, hseen⟩

theorem mem_dedupKeys {k : String} {l : List String} (h : k ∈ l) : k ∈ dedupKeys l :=
  dedupAux_mem_of l [] h rfl

theorem nodup_dedupAux : ∀ (l seen : List String), (dedupAux l seen).Nodup := by
  intro l
  induction l with
  | nil => intro seen; simp [dedupAux]
  | cons a ks ih =>
    intro seen
    rw [dedupAux]
    by_cases ha : seen.contains a = true
    · rw [if_pos ha]
      exact ih seen
    · rw [if_neg ha]
      refine List.nodup_cons.mpr ⟨?_, ih (a :: seen)⟩
      intro hmem
      have h2 := dedupAux_not_seen ks (a :: seen) hmem
      rw [List.contains_cons] at h2
      simp at h2

theorem nodup_dedupKeys (l : List String) : (dedupKeys l).Nodup :=
  nodup_dedupAux l []

theorem deleteFields_lookup_self (fs : List (Fld JSVal)) (k : String) :
    fieldsLookup (deleteFields fs k) k = none := by
  induction fs with
  | nil => rfl
  | cons f fs ih =>
    by_cases hk : f.key = k <;>
      simp only [deleteFields, List.filter_cons] at ih ⊢ <;>
      simp [fieldsLookup, hk, ih]

theorem deleteFields_lookup_ne (fs : List (Fld JSVal)) (k k' : String) (h : k' ≠ k) :
    fieldsLookup (deleteFields fs k) k' = fieldsLookup fs k' := by
  induction fs with
  | nil => rfl
  | cons f fs ih =>
    by_cases hk : f.key = k
    · have hk2 : ¬f.key = k' := by rw [hk]; exact fun he => h he.symm
      simp only [deleteFields, List.filter_cons] at ih ⊢
      simp [fieldsLookup, hk, hk2, h, Ne.symm h, ih]
    · by_cases hk3 : f.key = k' <;>
        simp only [deleteFields, List.filter_cons] at ih ⊢ <;>
        simp [fieldsLookup, hk, hk3, h, Ne.symm h, ih]

theorem setEnumFields_lookup_self (fs : List (Fld JSVal)) (k : String) (e : Bool) :
    fieldsLookup (setEnumFields fs k e) k =
      (fieldsLookup fs k).map (fun f => { f with enumerable := e }) := by
  induction fs with
  | nil => rfl
  | cons f fs ih =>
    obtain ⟨key, en, c, kind⟩ := f
    by_cases hk : key = k
    · subst hk
      simp [setEnumFields, fieldsLookup]
    · simp [setEnumFields, fieldsLookup, hk, ih]

theorem setEnumFields_lookup_ne (fs : List (Fld JSVal)) (k k' : String) (e : Bool)
    (h : k' ≠ k) :
    fieldsLookup (setEnumFields fs k e) k' = fieldsLookup fs k' := by
  induction fs with
  | nil => rfl
  | cons f fs ih =>
    obtain ⟨key, en, c, kind⟩ := f
    by_cases hk : key = k
    · have hk2 : ¬key = k' := by rw [hk]; exact fun he => h he.symm
      simp [setEnumFields, fieldsLookup, hk, hk2, h, Ne.symm h]
    · by_cases hk3 : key = k' <;> simp [setEnumFields, fieldsLookup, hk, hk3, h, Ne.symm h, ih]

theorem clearSlotFields_lookup_self (fs : List (Fld JSVal)) (k : String) :
    fieldsLookup (clearSlotFields fs k) k =
      (fieldsLookup fs k).map (fun f =>
        match f.kind with
        | .accessor hg hs _ => { f with kind := .accessor hg hs .vUndef }
        | other => { f with kind := other }) := by
  induction fs with
  | nil => rfl
  | cons f fs ih =>
    obtain ⟨key, en, c, kind⟩ := f
    cases kind with
    | data v w =>
      by_cases hk : key = k
      · subst hk
        simp [clearSlotFields, fieldsLookup]
      · simp [clearSlotFields, fieldsLookup, hk, ih]
    | accessor hg hs sl =>
      by_cases hk : key = k
      · subst hk
        simp [clearSlotFields, fieldsLookup]
      · simp [clearSlotFields, fieldsLookup, hk, ih]

theorem clearSlotFields_lookup_ne (fs : List (Fld JSVal)) (k k' : String) (h : k' ≠ k) :
    fieldsLookup (clearSlotFields fs k) k' = fieldsLookup fs k' := by
  induction fs with
  | nil => rfl
  | cons f fs ih =>
    obtain ⟨key, en, c, kind⟩ := f
    cases kind with
    | data v w =>
      by_cases hk : key = k
      · have hk2 : ¬key = k' := by rw [hk]; exact fun he => h he.symm
        simp [clearSlotFields, fieldsLookup, hk, hk2, h, Ne.symm h]
      · by_cases hk3 : key = k' <;> simp [clearSlotFields, fieldsLookup, hk, hk3, h, Ne.symm h, ih]
    | accessor hg hs sl =>
      by_cases hk : key = k
      · have hk2 : ¬key = k' := by rw [hk]; exact fun he => h he.symm
        simp [clearSlotFields, fieldsLookup, hk, hk2, h, Ne.symm h]
      · by_cases hk3 : key = k' <;> simp [clearSlotFields, fieldsLookup, hk, hk3, h, Ne.symm h, ih]

theorem setValFields_lookup_self (fs : List (Fld JSVal)) (k : String) (v : JSVal) :
    fieldsLookup (setValFields fs k v) k =
      (fieldsLookup fs k).map (fun f =>
        match f.kind with
        | .data _ w => { f with kind := .data v w }
        | .accessor hg hs _ => { f with kind := .accessor hg hs v }) := by
  induction fs with
  | nil => rfl
  | cons f fs ih =>
    obtain ⟨key, en, c, kind⟩ := f
    cases kind with
    | data v0 w =>
      by_cases hk : key = k
      · subst hk
        simp [setValFields, fieldsLookup]
      · simp [setValFields, fieldsLookup, hk, ih]
    | accessor hg hs sl =>
      by_cases hk : key = k
      · subst hk
        simp [setValFields, fieldsLookup]
      · simp [setValFields, fieldsLookup, hk, ih]

theorem setValFields_lookup_ne (fs : List (Fld JSVal)) (k k' : String) (v : JSVal)
    (h : k' ≠ k) :
    fieldsLookup (setValFields fs k v) k' = fieldsLookup fs k' := by
  induction fs with
  | nil => rfl
  | cons f fs ih =>
    obtain ⟨key, en, c, kind⟩ := f
    cases kind with
    | data v0 w =>
      by_cases hk : key = k
      · have hk2 : ¬key = k' := by rw [hk]; exact fun he => h he.symm
        simp [setValFields, fieldsLookup, hk, hk2, h, Ne.symm h]
      · by_cases hk3 : key = k' <;> simp [setValFields, fieldsLookup, hk, hk3, h, Ne.symm h, ih]
    | accessor hg hs sl =>
      by_cases hk : key = k
      · have hk2 : ¬key = k' := by rw [hk]; exact fun he => h he.symm
        simp [setValFields, fieldsLookup, hk, hk2, h, Ne.symm h]
      · by_cases hk3 : key = k' <;> simp [setValFields, fieldsLookup, hk, hk3, h, Ne.symm h, ih]

theorem assignFields_lookup_ne {fs fs1 : List (Fld JSVal)} {k : String} {v : JSVal}
    (h : assignFields fs k v = some fs1) (k' : String) (hne : k' ≠ k) :
    fieldsLookup fs1 k' = fieldsLookup fs k' := by
  induction fs generalizing fs1 with
  | nil =>
    rw [assignFields] at h
    simp only [Option.some.injEq] at h
    subst h
    simp [fieldsLookup]
    exact fun he => hne he.symm
  | cons f fs ih =>
    obtain ⟨key, en, c, kind⟩ := f
    by_cases hk : key = k
    · have hk2 : ¬key = k' := by rw [hk]; exact fun he => hne he.symm
      cases kind with
      | data v0 w =>
        cases hw : w with
        | true =>
          subst hw
          simp [assignFields, hk] at h
          subst h
          simp [fieldsLookup, hk2]
          exact fun he => absurd he.symm hne
        | false =>
          subst hw
          simp [assignFields, hk] at h
      | accessor hg hs sl =>
        cases hw : hs with
        | true =>
          subst hw
          simp [assignFields, hk] at h
          subst h
          simp [fieldsLookup, hk2]
          exact fun he => absurd he.symm hne
        | false =>
          subst hw
          simp [assignFields, hk] at h
    · cases has : assignFields fs k v with
      | none => simp [assignFields, hk, has] at h
      | some fs2 =>
        simp [assignFields, hk, has] at h
        subst h
        by_cases hk3 : key = k' <;> simp [fieldsLookup, hk3, hne, Ne.symm hne, ih has]

theorem objLookup_jsDelete_ne (acc : JSVal) (k k' : String) (h : k' ≠ k) :
    objLookup (jsDelete acc k) k' = objLookup acc k' := by
  cases acc <;>
    first
      | rfl
      | exact deleteFields_lookup_ne _ _ _ h

theorem objLookup_jsSetEnum_ne (acc : JSVal) (k k' : String) (e : Bool) (h : k' ≠ k) :
    objLookup (jsSetEnum acc k e) k' = objLookup acc k' := by
  cases acc <;>
    first
      | rfl
      | exact setEnumFields_lookup_ne _ _ _ _ h

theorem objLookup_jsClearSlot_ne (acc : JSVal) (k k' : String) (h : k' ≠ k) :
    objLookup (jsClearSlot acc k) k' = objLookup acc k' := by
  cases acc <;>
    first
      | rfl
      | exact clearSlotFields_lookup_ne _ _ _ h

theorem objLookup_jsSetVal_ne (acc : JSVal) (k k' : String) (v : JSVal) (h : k' ≠ k) :
    objLookup (jsSetVal acc k v) k' = objLookup acc k' := by
  cases acc <;>
    first
      | rfl
      | exact setValFields_lookup_ne _ _ _ _ h

theorem objLookup_jsAssign_ne {acc acc1 : JSVal} {k : String} {v : JSVal}
    (h : jsAssign acc k v = some acc1) (k' : String) (hne : k' ≠ k) :
    objLookup acc1 k' = objLookup acc k' := by
  cases acc with
  | vObj fs =>
    rw [jsAssign] at h
    cases has : assignFields fs k v with
    | none => rw [has] at h; exact absurd h (by simp)
    | some fs1 =>
      rw [has] at h
      simp at h
      subst h
      exact assignFields_lookup_ne has k' hne
  | vNull => exact absurd h (by simp [jsAssign])
  | vUndef => exact absurd h (by simp [jsAssign])
  | vBool b => exact absurd h (by simp [jsAssign])
  | vNum n => exact absurd h (by simp [jsAssign])
  | vStr s => exact absurd h (by simp [jsAssign])
  | vFun i => exact absurd h (by simp [jsAssign])

theorem addBranch_acc_lookup_ne (p k : String) (newV : JSVal) (acc : JSVal)
    (k' : String) (hne : k' ≠ k) :
    objLookup (addBranch p k newV acc).acc k' = objLookup acc k' := by
  rw [addBranch]
  cases has : jsAssign acc k newV with
  | none => rfl
  | some acc1 =>
    show objLookup (if hasOwnB acc1 k = true then jsSetEnum acc1 k true else acc1) k' =
      objLookup acc k'
    split
    · rw [objLookup_jsSetEnum_ne _ _ _ _ hne]
      exact objLookup_jsAssign_ne has k' hne
    · exact objLookup_jsAssign_ne has k' hne

theorem removeBranch_acc_lookup_ne (p k : String) (f : Fld JSVal) (acc : JSVal)
    (k' : String) (hne : k' ≠ k) :
    objLookup (removeBranch p k f acc).acc k' = objLookup acc k' := by
  rw [removeBranch]
  split
  · simp only [StepRes.acc]
    exact objLookup_jsDelete_ne _ _ _ hne
  · simp only [StepRes.acc]
    rw [objLookup_jsSetEnum_ne _ _ _ _ hne]
    split
    · split
      · exact objLookup_jsClearSlot_ne _ _ _ hne
      · rfl
    · rfl

theorem updateBranch_acc_lookup_ne (p k : String) (newV : JSVal) (acc : JSVal)
    (k' : String) (hne : k' ≠ k) :
    objLookup (updateBranch p k newV acc).acc k' = objLookup acc k' := by
  rw [updateBranch]
  cases has : jsAssign acc k newV with
  | none => rfl
  | some acc1 => exact objLookup_jsAssign_ne has k' hne

/-- Key-locality of one `forEach` iteration: processing key `k` never
changes any other key's descriptor. -/
theorem processKey_acc_lookup_ne (oldObj newObj : JSVal) (p k : String) (acc : JSVal)
    (k' : String) (hne : k' ≠ k) :
    objLookup (processKey oldObj newObj p k acc).acc k' = objLookup acc k' := by
  rw [processKey]
  repeat' split
  all_goals simp only [StepRes.acc]
  all_goals first
    | rfl
    | exact addBranch_acc_lookup_ne _ _ _ _ _ hne
    | exact removeBranch_acc_lookup_ne _ _ _ _ _ hne
    | exact updateBranch_acc_lookup_ne _ _ _ _ _ hne
    | exact objLookup_jsSetVal_ne _ _ _ _ hne

theorem objLookup_jsDelete_self (a : JSVal) (k : String) :
    objLookup (jsDelete a k) k = none := by
  cases a <;>
    first
      | rfl
      | exact deleteFields_lookup_self _ _

theorem objLookup_jsSetEnum_self (a : JSVal) (k : String) (e : Bool) :
    objLookup (jsSetEnum a k e) k = (objLookup a k).map (fun f => { f with enumerable := e }) := by
  cases a <;>
    first
      | rfl
      | exact setEnumFields_lookup_self _ _ _

theorem objLookup_jsClearSlot_self (a : JSVal) (k : String) :
    objLookup (jsClearSlot a k) k =
      (objLookup a k).map (fun f =>
        match f.kind with
        | .accessor hg hs _ => { f with kind := .accessor hg hs .vUndef }
        | other => { f with kind := other }) := by
  cases a <;>
    first
      | rfl
      | exact clearSlotFields_lookup_self _ _

theorem objLookup_jsSetVal_self (a : JSVal) (k : String) (v : JSVal) :
    objLookup (jsSetVal a k v) k =
      (objLookup a k).map (fun f =>
        match f.kind with
        | .data _ w => { f with kind := .data v w }
        | .accessor hg hs _ => { f with kind := .accessor hg hs v }) := by
  cases a <;>
    first
      | rfl
      | exact setValFields_lookup_self _ _ _

/-- Transport along the fold: keys not in the iterated list are never
touched. -/
theorem applyKeys_lookup_not_mem (oldObj newObj : JSVal) (p : String) :
    ∀ (keys : List String) (acc : JSVal) (logs : List LogEvent) (k' : String),
      k' ∉ keys →
      objLookup (applyKeys oldObj newObj p keys acc logs).tree k' = objLookup acc k' := by
  intro keys
  induction keys with
  | nil =>
    intro acc logs k' _
    rw [applyKeys]
    rfl
  | cons k ks ih =>
    intro acc logs k' hmem
    rw [applyKeys]
    have hne : k' ≠ k := fun he => hmem (he ▸ List.mem_cons_self k ks)
    have hloc := processKey_acc_lookup_ne oldObj newObj p k acc k' hne
    cases hstep : processKey oldObj newObj p k acc with
    | cont acc1 l =>
      rw [hstep] at hloc
      show objLookup (applyKeys oldObj newObj p ks acc1 (logs ++ l)).tree k' = objLookup acc k'
      rw [ih acc1 (logs ++ l) k' (fun hm => hmem (List.mem_cons_of_mem _ hm))]
      exact hloc
    | halt e acc1 l =>
      rw [hstep] at hloc
      exact hloc

/-- The fold only appends to the running log list. -/
theorem applyKeys_logs_append (oldObj newObj : JSVal) (p : String) :
    ∀ (keys : List String) (acc : JSVal) (logs : List LogEvent),
      ∃ l2, (applyKeys oldObj newObj p keys acc logs).logs = logs ++ l2 := by
  intro keys
  induction keys with
  | nil =>
    intro acc logs
    refine ⟨[], ?_⟩
    rw [applyKeys]
    simp [ACResult.logs]
  | cons k ks ih =>
    intro acc logs
    rw [applyKeys]
    cases hstep : processKey oldObj newObj p k acc with
    | cont acc1 l =>
      obtain ⟨l2, hl⟩ := ih acc1 (logs ++ l)
      refine ⟨l ++ l2, ?_⟩
      show (applyKeys oldObj newObj p ks acc1 (logs ++ l)).logs = logs ++ (l ++ l2)
      rw [hl, List.append_assoc]
    | halt e acc1 l =>
      exact ⟨l, rfl⟩

/-- Transport of a single-key fact through the whole fold: if processing
key `k` (on any accumulator agreeing with the start at `k`) continues
with the given step logs and leaves the given descriptor at `k`, then a
normally-completed fold over a duplicate-free key list containing `k`
shows that descriptor in the final tree and those logs in the final log
list. -/
theorem applyKeys_step_at_key (oldObj newObj : JSVal) (p k : String)
    (stepLogs : List LogEvent) (target : Option (Fld JSVal)) :
    ∀ (keys : List String) (acc : JSVal) (logs : List LogEvent),
      k ∈ keys → keys.Nodup →
      (∀ a, objLookup a k = objLookup acc k →
        ∃ a2, processKey oldObj newObj p k a = .cont a2 stepLogs ∧ objLookup a2 k = target) →
      ∀ t L, applyKeys oldObj newObj p keys acc logs = .ok t L →
        objLookup t k = target ∧ ∀ e ∈ stepLogs, e ∈ L := by
  intro keys
  induction keys with
  | nil =>
    intro acc logs hmem
    exact absurd hmem (List.not_mem_nil k)
  | cons k0 ks ih =>
    intro acc logs hmem hnd hstep t L happ
    rw [applyKeys] at happ
    by_cases hk0 : k0 = k
    · subst hk0
      obtain ⟨a2, hpk, ha2⟩ := hstep acc rfl
      rw [hpk] at happ
      have happ2 : applyKeys oldObj newObj p ks a2 (logs ++ stepLogs) = .ok t L := happ
      have hnotmem : k0 ∉ ks := (List.nodup_cons.mp hnd).1
      constructor
      · have hfin := applyKeys_lookup_not_mem oldObj newObj p ks a2 (logs ++ stepLogs) k0 hnotmem
        rw [happ2] at hfin
        exact hfin.trans ha2
      · obtain ⟨l2, hl⟩ := applyKeys_logs_append oldObj newObj p ks a2 (logs ++ stepLogs)
        rw [happ2] at hl
        have hl2 : L = (logs ++ stepLogs) ++ l2 := hl
        intro e he
        rw [hl2]
        exact List.mem_append_left _ (List.mem_append_right _ he)
    · have hmem' : k ∈ ks := by
        rcases List.mem_cons.mp hmem with he | hm
        · exact absurd he.symm hk0
        · exact hm
      cases hstep0 : processKey oldObj newObj p k0 acc with
      | cont acc1 l =>
        rw [hstep0] at happ
        have happ2 : applyKeys oldObj newObj p ks acc1 (logs ++ l) = .ok t L := happ
        have hloc := processKey_acc_lookup_ne oldObj newObj p k0 acc k (fun he => hk0 he.symm)
        rw [hstep0] at hloc
        exact ih acc1 (logs ++ l) hmem' (List.nodup_cons.mp hnd).2
          (fun a ha => hstep a (ha.trans hloc)) t L happ2
      | halt e acc1 l =>
        rw [hstep0] at happ
        exact ACResult.noConfusion happ

/-- The field left behind by the hide path of the remove branch: the
setter (when present) has cleared the backing slot and the property is no
longer enumerable. -/
def hiddenFld (f : Fld JSVal) : Fld JSVal :=
  { (match f.kind with
     | .accessor hg hs _ =>
       if hs then { f with kind := FldKind.accessor hg hs JSVal.vUndef } else f
     | other => { f with kind := other }) with enumerable := false }

/-- What the remove branch does at its own key, when the accumulator
still holds the descriptor `f` there: a truthy `descriptor.value` means
the field is deleted; otherwise it is hidden (slot cleared when a setter
exists); in both cases a `removed` event is the only report. -/
theorem removeBranch_spec (p k : String) (f : Fld JSVal) (a : JSVal)
    (ha : objLookup a k = some f) :
    ∃ a2, removeBranch p k f a = .cont a2 [.removed (p ++ k)] ∧
      objLookup a2 k = (if f.descValue.truthy then none else some (hiddenFld f)) := by
  rw [removeBranch]
  by_cases htru : f.descValue.truthy = true
  · refine ⟨jsDelete a k, by rw [if_pos htru], ?_⟩
    rw [if_pos htru]
    exact objLookup_jsDelete_self a k
  · rw [if_neg htru, if_neg htru]
    cases hkind : f.kind with
    | data v w =>
      refine ⟨jsSetEnum a k false, rfl, ?_⟩
      rw [objLookup_jsSetEnum_self, ha]
      simp [hiddenFld, hkind]
    | accessor hg hs sl =>
      cases hhs : hs with
      | true =>
        refine ⟨jsSetEnum (jsClearSlot a k) k false, by simp [hkind, hhs], ?_⟩
        rw [objLookup_jsSetEnum_self, objLookup_jsClearSlot_self, ha]
        simp [hiddenFld, hkind, hhs]
      | false =>
        refine ⟨jsSetEnum a k false, by simp [hkind, hhs], ?_⟩
        rw [objLookup_jsSetEnum_self, ha]
        simp [hiddenFld, hkind, hhs]

/-- The locked branch: a non-configurable previous field whose key the
incoming tree supplies (with a different value) reports the failure and
changes nothing. -/
theorem processKey_locked (fs gs : List (Fld JSVal)) (p k : String) (f : Fld JSVal) (a : JSVal)
    (hlook : fieldsLookup fs k = some f)
    (hconf : f.configurable = false)
    (hhasNew : (fieldsLookup gs k).isSome = true)
    (hne : JSVal.strictEq (propVal (.vObj gs) k) f.readVal = false) :
    processKey (.vObj fs) (.vObj gs) p k a = .cont a [.lockedErr k] := by
  rw [processKey]
  simp only [propVal, objLookup] at hne
  simp [readProp, objLookup, hlook, hconf, hasOwnB, hhasNew, hne]

/-- Selection of the remove branch: an enumerable configurable previous field,
absent from the incoming tree, whose read value is not `undefined`. -/
theorem processKey_remove (fs gs : List (Fld JSVal)) (p k : String) (f : Fld JSVal) (a : JSVal)
    (hlook : fieldsLookup fs k = some f)
    (henum : f.enumerable = true)
    (hconf : f.configurable = true)
    (habsent : fieldsLookup gs k = none)
    (hne : JSVal.strictEq .vUndef f.readVal = false) :
    processKey (.vObj fs) (.vObj gs) p k a = removeBranch p k f a := by
  rw [processKey]
  simp [readProp, objLookup, hlook, hconf, henum, hasOwnB, habsent, hne]

/-! ## Helper lemmas for the round-trip property: plain trees -/

theorem strictEq_eq {a b : JSVal} (h : a.strictEq b = true) : a = b := by
  cases a <;> cases b <;> simp_all [JSVal.strictEq]

theorem plainField_data {f : Fld JSVal} (h : plainField f = true) :
    f.enumerable = true ∧ f.configurable = true ∧
    ∃ v, f.kind = .data v true ∧ f.readVal = v ∧ v.truthy = true ∧ plainV v = true := by
  obtain ⟨key, e, c, kind⟩ := f
  cases kind with
  | accessor hg hs s => simp [plainField] at h
  | data v w =>
    simp only [plainField, Bool.and_eq_true] at h
    obtain ⟨⟨⟨⟨he, hc⟩, hw⟩, ht⟩, hp⟩ := h
    subst hw
    exact ⟨he, hc, v, rfl, rfl, ht, hp⟩

theorem plainFields_mem {fs : List (Fld JSVal)} {f : Fld JSVal}
    (hp : plainFields fs = true) (hm : f ∈ fs) : plainField f = true := by
  induction fs with
  | nil => simp at hm
  | cons g gs ih =>
    rw [plainFields] at hp
    rw [Bool.and_eq_true] at hp
    rcases List.mem_cons.mp hm with he | hm2
    · subst he
      exact hp.1
    · exact ih hp.2 hm2

theorem fieldsNodup_lookup {fs : List (Fld JSVal)} {g : Fld JSVal}
    (hn : fieldsNodup fs = true) (hm : g ∈ fs) : fieldsLookup fs g.key = some g := by
  induction fs with
  | nil => simp at hm
  | cons f fs ih =>
    rw [fieldsNodup, Bool.and_eq_true] at hn
    rcases List.mem_cons.mp hm with he | hm2
    · subst he
      rw [fieldsLookup, if_pos (by simp)]
    · rw [fieldsLookup]
      have hne : ¬g.key = f.key := by
        have := List.all_eq_true.mp hn.1 g hm2
        simpa using this
      rw [if_neg (by simp; exact fun he2 => hne he2.symm)]
      exact ih hn.2 hm2

theorem plainV_parts {fs : List (Fld JSVal)} (hp : plainV (.vObj fs) = true) :
    fieldsNodup fs = true ∧ plainFields fs = true := by
  rw [plainV, Bool.and_eq_true] at hp
  exact hp

theorem plainV_lookup {fs : List (Fld JSVal)} {k : String} {f : Fld JSVal}
    (hp : plainV (.vObj fs) = true) (hl : fieldsLookup fs k = some f) :
    plainField f = true :=
  plainFields_mem (plainV_parts hp).2 (fieldsLookup_mem hl)

theorem fieldsSubEquiv_of_cond : ∀ (fs gs : List (Fld JSVal)),
    (∀ f ∈ fs, ∃ g, fieldsLookup gs f.key = some g ∧ f.enumerable = g.enumerable ∧
      valEquiv f.readVal g.readVal = true) →
    fieldsSubEquiv fs gs = true := by
  intro fs
  induction fs with
  | nil => intro gs _; rw [fieldsSubEquiv]
  | cons f fs ih =>
    intro gs h
    rw [fieldsSubEquiv]
    obtain ⟨g, hg, he, hv⟩ := h f (List.mem_cons_self _ _)
    rw [hg, Bool.and_eq_true]
    constructor
    · rw [Bool.and_eq_true]
      exact ⟨by simp [he], hv⟩
    · exact ih gs (fun f2 hm => h f2 (List.mem_cons_of_mem _ hm))

theorem valEquiv_refl_plain : ∀ (n : Nat) (v : JSVal), sizeOf v ≤ n → plainV v = true →
    valEquiv v v = true := by
  intro n
  induction n with
  | zero =>
    intro v hs
    cases v <;> simp at hs
  | succ n ih =>
    intro v hs hp
    cases v with
    | vObj fs =>
      obtain ⟨hnd, hpf⟩ := plainV_parts hp
      rw [valEquiv, Bool.and_eq_true]
      constructor
      · apply fieldsSubEquiv_of_cond
        intro f hm
        refine ⟨f, fieldsNodup_lookup hnd hm, rfl, ?_⟩
        obtain ⟨_, _, v0, hk, hrv, _, hpv⟩ := plainField_data (plainFields_mem hpf hm)
        apply ih
        · have h1 : sizeOf f < sizeOf fs := List.sizeOf_lt_of_mem hm
          have h2 := sizeOf_readVal f
          simp at hs
          omega
        · rw [hrv]
          exact hpv
      · rw [List.all_eq_true]
        intro g hm
        simp [fieldsNodup_lookup hnd hm]
    | vNull => simp [plainV] at hp
    | vUndef => simp [plainV] at hp
    | vBool b => simp [valEquiv, JSVal.strictEq]
    | vNum n2 => simp [valEquiv, JSVal.strictEq]
    | vStr s => simp [valEquiv, JSVal.strictEq]
    | vFun i => simp [valEquiv, JSVal.strictEq]

theorem fieldsLookup_none_keys {fs : List (Fld JSVal)} {k : String}
    (h : fieldsLookup fs k = none) : ∀ g ∈ fs, g.key ≠ k := by
  induction fs with
  | nil => intro g hg; simp at hg
  | cons f fs ih =>
    intro g hg
    rw [fieldsLookup] at h
    by_cases hk : (f.key == k) = true
    · rw [if_pos hk] at h
      exact absurd h (by simp)
    · rw [if_neg hk] at h
      rcases List.mem_cons.mp hg with he | hm
      · subst he
        simpa using hk
      · exact ih h g hm

theorem assignFields_absent {fs : List (Fld JSVal)} {k : String} (v : JSVal)
    (h : fieldsLookup fs k = none) :
    assignFields fs k v = some (fs ++ [⟨k, true, true, .data v true⟩]) := by
  induction fs with
  | nil => rfl
  | cons f fs ih =>
    rw [fieldsLookup] at h
    by_cases hk : (f.key == k) = true
    · rw [if_pos hk] at h
      exact absurd h (by simp)
    · rw [if_neg hk] at h
      rw [assignFields, if_neg hk, ih h]
      rfl

theorem fieldsLookup_append_absent {fs : List (Fld JSVal)} {k : String} (f0 : Fld JSVal)
    (h : fieldsLookup fs k = none) (hk0 : f0.key = k) :
    fieldsLookup (fs ++ [f0]) k = some f0 := by
  induction fs with
  | nil => simp [fieldsLookup, hk0]
  | cons f fs ih =>
    rw [fieldsLookup] at h
    by_cases hk : (f.key == k) = true
    · rw [if_pos hk] at h
      exact absurd h (by simp)
    · rw [if_neg hk] at h
      rw [List.cons_append, fieldsLookup, if_neg hk]
      exact ih h

theorem assignFields_eq_setVal {fs : List (Fld JSVal)} {k : String} {f : Fld JSVal}
    {v0 : JSVal} (h : fieldsLookup fs k = some f) (hkind : f.kind = .data v0 true)
    (v : JSVal) :
    assignFields fs k v = some (setValFields fs k v) := by
  induction fs with
  | nil => simp [fieldsLookup] at h
  | cons g gs ih =>
    rw [fieldsLookup] at h
    by_cases hk : (g.key == k) = true
    · rw [if_pos hk] at h
      simp only [Option.some.injEq] at h
      subst h
      rw [assignFields, if_pos hk, setValFields, if_pos (by simpa using hk)]
      rw [hkind]
      rfl
    · rw [if_neg hk] at h
      rw [assignFields, if_neg hk, setValFields, if_neg (by simpa using hk), ih h]
      rfl

theorem setValFields_keys (fs : List (Fld JSVal)) (k : String) (v : JSVal) :
    (setValFields fs k v).map (fun f => f.key) = fs.map (fun f => f.key) := by
  induction fs with
  | nil => rfl
  | cons f fs ih =>
    rw [setValFields]
    by_cases hk : (f.key == k) = true
    · rw [if_pos hk]
      cases hkind : f.kind <;> simp
    · rw [if_neg hk]
      simp [ih]

theorem setEnumFields_keys (fs : List (Fld JSVal)) (k : String) (e : Bool) :
    (setEnumFields fs k e).map (fun f => f.key) = fs.map (fun f => f.key) := by
  induction fs with
  | nil => rfl
  | cons f fs ih =>
    rw [setEnumFields]
    by_cases hk : (f.key == k) = true
    · rw [if_pos hk]
      simp
    · rw [if_neg hk]
      simp [ih]

theorem allKeysNe_congr {fs gs : List (Fld JSVal)} {K : String}
    (h : fs.map (fun f => f.key) = gs.map (fun f => f.key)) :
    fs.all (fun g => g.key ≠ K) = gs.all (fun g => g.key ≠ K) := by
  induction fs generalizing gs with
  | nil =>
    cases gs with
    | nil => rfl
    | cons g gs => simp at h
  | cons f fs ih =>
    cases gs with
    | nil => simp at h
    | cons g gs =>
      simp only [List.map_cons, List.cons.injEq] at h
      simp only [List.all_cons, h.1, ih h.2]

theorem fieldsNodup_congr_keys {fs gs : List (Fld JSVal)}
    (h : fs.map (fun f => f.key) = gs.map (fun f => f.key)) :
    fieldsNodup fs = fieldsNodup gs := by
  induction fs generalizing gs with
  | nil =>
    cases gs with
    | nil => rfl
    | cons g gs => simp at h
  | cons f fs ih =>
    cases gs with
    | nil => simp at h
    | cons g gs =>
      simp only [List.map_cons, List.cons.injEq] at h
      rw [fieldsNodup, fieldsNodup, allKeysNe_congr h.2, h.1, ih h.2]

theorem fieldsNodup_filter (q : Fld JSVal → Bool) {fs : List (Fld JSVal)}
    (h : fieldsNodup fs = true) : fieldsNodup (fs.filter q) = true := by
  induction fs with
  | nil => rfl
  | cons f fs ih =>
    rw [fieldsNodup, Bool.and_eq_true] at h
    rw [List.filter_cons]
    by_cases hq : q f = true
    · rw [if_pos hq, fieldsNodup, Bool.and_eq_true]
      refine ⟨?_, ih h.2⟩
      rw [List.all_eq_true]
      intro g hg
      exact List.all_eq_true.mp h.1 g (List.mem_filter.mp hg).1
    · rw [if_neg hq]
      exact ih h.2

theorem plainFields_filter (q : Fld JSVal → Bool) {fs : List (Fld JSVal)}
    (h : plainFields fs = true) : plainFields (fs.filter q) = true := by
  induction fs with
  | nil => exact h
  | cons f fs ih =>
    rw [plainFields, Bool.and_eq_true] at h
    rw [List.filter_cons]
    by_cases hq : q f = true
    · rw [if_pos hq, plainFields, Bool.and_eq_true]
      exact ⟨h.1, ih h.2⟩
    · rw [if_neg hq]
      exact ih h.2

theorem plainFields_setVal {fs : List (Fld JSVal)} {k : String} {v : JSVal}
    (h : plainFields fs = true) (ht : v.truthy = true) (hp : plainV v = true) :
    plainFields (setValFields fs k v) = true := by
  induction fs with
  | nil => exact h
  | cons f fs ih =>
    rw [plainFields, Bool.and_eq_true] at h
    rw [setValFields]
    by_cases hk : (f.key == k) = true
    · rw [if_pos hk]
      obtain ⟨he, hc, v0, hkind, _, _, _⟩ := plainField_data h.1
      rw [hkind, plainFields, Bool.and_eq_true]
      constructor
      · obtain ⟨key, e, c, kind⟩ := f
        simp at hkind
        subst hkind
        simp at he hc
        subst he
        subst hc
        simp [plainField, ht, hp]
      · exact h.2
    · rw [if_neg hk, plainFields, Bool.and_eq_true]
      exact ⟨h.1, ih h.2⟩

theorem plainFields_append {fs : List (Fld JSVal)} {f0 : Fld JSVal}
    (h : plainFields fs = true) (h0 : plainField f0 = true) :
    plainFields (fs ++ [f0]) = true := by
  induction fs with
  | nil => simp [plainFields, h0]
  | cons f fs ih =>
    rw [plainFields, Bool.and_eq_true] at h
    rw [List.cons_append, plainFields, Bool.and_eq_true]
    exact ⟨h.1, ih h.2⟩

theorem fieldsNodup_append_absent {fs : List (Fld JSVal)} {k : String}
    (hn : fieldsNodup fs = true) (habs : ∀ g ∈ fs, g.key ≠ k)
    (e0 c0 : Bool) (kd : FldKind JSVal)
    (hk0 : (⟨k, e0, c0, kd⟩ : Fld JSVal).key = k) :
    fieldsNodup (fs ++ [⟨k, e0, c0, kd⟩]) = true := by
  induction fs with
  | nil => simp [fieldsNodup]
  | cons f fs ih =>
    rw [fieldsNodup, Bool.and_eq_true] at hn
    rw [List.cons_append, fieldsNodup, Bool.and_eq_true]
    constructor
    · rw [List.all_eq_true]
      intro g hg
      rcases List.mem_append.mp hg with hm | hm
      · exact List.all_eq_true.mp hn.1 g hm
      · simp at hm
        subst hm
        simp
        exact fun he => (habs f (List.mem_cons_self _ _)) he.symm
    · exact ih hn.2 (fun g hg => habs g (List.mem_cons_of_mem _ hg))

theorem plainFields_setEnumTrue {fs : List (Fld JSVal)} {k : String}
    (h : plainFields fs = true) : plainFields (setEnumFields fs k true) = true := by
  induction fs with
  | nil => exact h
  | cons f fs ih =>
    rw [plainFields, Bool.and_eq_true] at h
    rw [setEnumFields]
    by_cases hk : (f.key == k) = true
    · rw [if_pos hk, plainFields, Bool.and_eq_true]
      refine ⟨?_, h.2⟩
      obtain ⟨he, hc, v0, hkind, _, ht, hp⟩ := plainField_data h.1
      obtain ⟨key, e, c, kind⟩ := f
      simp at hkind
      subst hkind
      simp at hc
      subst hc
      simp [plainField, ht, hp]
    · rw [if_neg hk, plainFields, Bool.and_eq_true]
      exact ⟨h.1, ih h.2⟩

theorem plainV_jsDelete {fs : List (Fld JSVal)} {k : String}
    (h : plainV (.vObj fs) = true) : plainV (jsDelete (.vObj fs) k) = true := by
  obtain ⟨hn, hp⟩ := plainV_parts h
  rw [jsDelete, plainV, Bool.and_eq_true]
  exact ⟨fieldsNodup_filter _ hn, plainFields_filter _ hp⟩

theorem plainV_jsSetVal {fs : List (Fld JSVal)} {k : String} {v : JSVal}
    (h : plainV (.vObj fs) = true) (ht : v.truthy = true) (hpv : plainV v = true) :
    plainV (jsSetVal (.vObj fs) k v) = true := by
  obtain ⟨hn, hp⟩ := plainV_parts h
  rw [jsSetVal, plainV, Bool.and_eq_true]
  constructor
  · rw [fieldsNodup_congr_keys (setValFields_keys fs k v)]
    exact hn
  · exact plainFields_setVal hp ht hpv

theorem sizeOf_lookup_readVal {fs : List (Fld JSVal)} {k : String} {f : Fld JSVal}
    (h : fieldsLookup fs k = some f) : sizeOf f.readVal < sizeOf (JSVal.vObj fs) := by
  have h1 := sizeOf_fieldsLookup h
  have h2 := sizeOf_readVal f
  simp
  omega

theorem strictEq_vUndef_left {v : JSVal} (h : v.truthy = true) :
    JSVal.strictEq .vUndef v = false := by
  cases v <;> simp_all [JSVal.strictEq, JSVal.truthy]

theorem strictEq_vUndef_right {v : JSVal} (h : v.truthy = true) :
    v.strictEq .vUndef = false := by
  cases v <;> simp_all [JSVal.strictEq, JSVal.truthy]

theorem addBranch_spec_absent (p k : String) (v : JSVal) (afs : List (Fld JSVal))
    (ha : fieldsLookup afs k = none) :
    ∃ bs, addBranch p k v (.vObj afs) = .cont (.vObj bs) [.added (p ++ k) v] ∧
      fieldsLookup bs k = some (plainFld k v) ∧
      (∀ k', k' ≠ k → fieldsLookup bs k' = fieldsLookup afs k') ∧
      (plainV (.vObj afs) = true → v.truthy = true → plainV v = true →
        plainV (.vObj bs) = true) := by
  have hassign : jsAssign (.vObj afs) k v =
      some (.vObj (afs ++ [⟨k, true, true, .data v true⟩])) := by
    rw [jsAssign, assignFields_absent v ha]
    rfl
  have hlook1 : fieldsLookup (afs ++ [⟨k, true, true, .data v true⟩]) k =
      some ⟨k, true, true, .data v true⟩ :=
    fieldsLookup_append_absent _ ha rfl
  refine ⟨setEnumFields (afs ++ [⟨k, true, true, .data v true⟩]) k true, ?_, ?_, ?_, ?_⟩
  · rw [addBranch, hassign]
    have hown : hasOwnB (.vObj (afs ++ [⟨k, true, true, .data v true⟩])) k = true := by
      rw [hasOwnB, hlook1]
      rfl
    simp [hown]
    rfl
  · rw [setEnumFields_lookup_self, hlook1]
    rfl
  · intro k' hk'
    have h1 := objLookup_jsSetEnum_ne (.vObj (afs ++ [⟨k, true, true, .data v true⟩])) k k' true hk'
    have h2 := objLookup_jsAssign_ne hassign k' hk'
    exact h1.trans h2
  · intro hpa htv hpv
    obtain ⟨hn, hp⟩ := plainV_parts hpa
    rw [plainV, Bool.and_eq_true]
    constructor
    · rw [fieldsNodup_congr_keys (setEnumFields_keys _ _ _)]
      exact fieldsNodup_append_absent hn (fieldsLookup_none_keys ha) true true _ rfl
    · apply plainFields_setEnumTrue
      exact plainFields_append hp (by simp [plainField, htv, hpv])

theorem updateBranch_spec_data (p k : String) (v : JSVal) (afs : List (Fld JSVal))
    {f : Fld JSVal} {v0 : JSVal}
    (ha : fieldsLookup afs k = some f) (hkind : f.kind = .data v0 true) :
    updateBranch p k v (.vObj afs) = .cont (jsSetVal (.vObj afs) k v) [.updated (p ++ k) v] := by
  have hassign : jsAssign (.vObj afs) k v = some (jsSetVal (.vObj afs) k v) := by
    rw [jsAssign, assignFields_eq_setVal ha hkind v]
    rfl
  rw [updateBranch, hassign]

theorem processKey_skip (xfs zfs : List (Fld JSVal)) (p k : String) (a : JSVal)
    (hstrict : JSVal.strictEq (propVal (.vObj zfs) k) (propVal (.vObj xfs) k) = true) :
    processKey (.vObj xfs) (.vObj zfs) p k a = .cont a [] := by
  rw [processKey]
  simp only [propVal, objLookup] at hstrict
  simp [readProp, hstrict]

theorem processKey_recurse (xfs zfs : List (Fld JSVal)) (p k : String) (a : JSVal)
    {fx gz : Fld JSVal}
    (hlx : fieldsLookup xfs k = some fx) (hlz : fieldsLookup zfs k = some gz)
    (hconf : fx.configurable = true) (henum : fx.enumerable = true)
    (hstrict : JSVal.strictEq gz.readVal fx.readVal = false)
    (hguard : (gz.readVal.typeofObject && fx.readVal.typeofObject) = true) :
    processKey (.vObj xfs) (.vObj zfs) p k a =
      (match applyChange fx.readVal gz.readVal (k ++ "/") with
       | .ok t l => .cont (jsSetVal a k t) l
       | .thrown e t l => .halt e (jsSetVal a k t) l) := by
  rw [processKey]
  simp [readProp, objLookup, hlx, hlz, hconf, henum, hasOwnB, hstrict, hguard]

theorem processKey_update (xfs zfs : List (Fld JSVal)) (p k : String) (a : JSVal)
    {fx gz : Fld JSVal}
    (hlx : fieldsLookup xfs k = some fx) (hlz : fieldsLookup zfs k = some gz)
    (hconf : fx.configurable = true) (henum : fx.enumerable = true)
    (hstrict : JSVal.strictEq gz.readVal fx.readVal = false)
    (hguard : (gz.readVal.typeofObject && fx.readVal.typeofObject) = false) :
    processKey (.vObj xfs) (.vObj zfs) p k a = updateBranch p k gz.readVal a := by
  rw [processKey]
  simp [readProp, objLookup, hlx, hlz, hconf, henum, hasOwnB, hstrict, hguard]

theorem processKey_add (xfs zfs : List (Fld JSVal)) (p k : String) (a : JSVal)
    {gz : Fld JSVal}
    (hlx : fieldsLookup xfs k = none) (hlz : fieldsLookup zfs k = some gz)
    (hstrict : JSVal.strictEq gz.readVal .vUndef = false) :
    processKey (.vObj xfs) (.vObj zfs) p k a = addBranch p k gz.readVal a := by
  rw [processKey]
  simp [readProp, objLookup, hlx, hlz, hstrict]

/-- A deduplicated key comes from the input list. -/
theorem dedupAux_subset {k : String} :
    ∀ (l seen : List String), k ∈ dedupAux l seen → k ∈ l := by
  intro l
  induction l with
  | nil => intro seen h; simp [dedupAux] at h
  | cons a ks ih =>
    intro seen h
    rw [dedupAux] at h
    by_cases ha : seen.contains a = true
    · rw [if_pos ha] at h
      exact List.mem_cons_of_mem _ (ih seen h)
    · rw [if_neg ha] at h
      rcases List.mem_cons.mp h with h1 | h1
      · subst h1
        exact List.mem_cons_self _ _
      · exact List.mem_cons_of_mem _ (ih _ h1)

/-- Every member of `Object.keys` is an own property. -/
theorem enumKeys_lookup {fs : List (Fld JSVal)} {k : String}
    (h : k ∈ enumKeys (.vObj fs)) : (fieldsLookup fs k).isSome = true := by
  simp only [enumKeys, List.mem_map] at h
  obtain ⟨f, hf, hk⟩ := h
  cases hlook : fieldsLookup fs k with
  | some f2 => rfl
  | none => exact absurd hk (fieldsLookup_none_keys hlook f (List.mem_filter.mp hf).1)

/-- An enumerable own property's key is a member of `Object.keys`. -/
theorem enumKeys_mem_of_lookup {fs : List (Fld JSVal)} {k : String} {f : Fld JSVal}
    (h : fieldsLookup fs k = some f) (he : f.enumerable = true) :
    k ∈ enumKeys (.vObj fs) := by
  simp only [enumKeys, List.mem_map]
  exact ⟨f, List.mem_filter.mpr ⟨fieldsLookup_mem h, he⟩, fieldsLookup_key h⟩

/-- A key of the merged-spread key list is an own property of one of the
operands. -/
theorem mem_unionKeys_lookup {xs zs : List (Fld JSVal)} {k : String}
    (h : k ∈ unionKeys (.vObj xs) (.vObj zs)) :
    (fieldsLookup xs k).isSome = true ∨ (fieldsLookup zs k).isSome = true := by
  rw [unionKeys, dedupKeys] at h
  have h2 := dedupAux_subset _ _ h
  rcases List.mem_append.mp h2 with hm | hm
  · exact Or.inl (enumKeys_lookup hm)
  · exact Or.inr (enumKeys_lookup hm)

/-- The fold invariant for reconciling plain trees: iterating `applyKeys`
over a duplicate-free sublist of the merged keys, with the accumulator
agreeing with the original `oldObj` on the unprocessed keys and already
matching `newObj` (key-for-key, with observably equivalent read values)
on the processed ones, completes normally and yields a plain tree that
matches `newObj` at every key.  The recursive calls of `processKey` are
provided through the oracle `hrec`, discharged by strong induction in
`applyChange_plain` below. -/
theorem applyKeys_plain_aux (xs zs : List (Fld JSVal)) (p : String)
    (hpx : plainV (.vObj xs) = true) (hpz : plainV (.vObj zs) = true)
    (hrec : ∀ (xs1 zs1 : List (Fld JSVal)) (p1 : String),
      sizeOf (JSVal.vObj xs1) + sizeOf (JSVal.vObj zs1) <
        sizeOf (JSVal.vObj xs) + sizeOf (JSVal.vObj zs) →
      plainV (.vObj xs1) = true → plainV (.vObj zs1) = true →
      ∃ ts L, applyChange (.vObj xs1) (.vObj zs1) p1 = .ok (.vObj ts) L ∧
        plainV (.vObj ts) = true ∧ valEquiv (.vObj ts) (.vObj zs1) = true) :
    ∀ (keys : List String), keys.Nodup →
      (∀ k ∈ keys, (fieldsLookup xs k).isSome = true ∨ (fieldsLookup zs k).isSome = true) →
      ∀ (as : List (Fld JSVal)) (logs : List LogEvent),
      (∀ k ∈ keys, fieldsLookup as k = fieldsLookup xs k) →
      (∀ k, k ∉ keys →
        (fieldsLookup zs k = none → fieldsLookup as k = none) ∧
        (∀ g, fieldsLookup zs k = some g → ∃ f, fieldsLookup as k = some f ∧
          valEquiv f.readVal g.readVal = true)) →
      plainV (.vObj as) = true →
      ∃ ts L, applyKeys (.vObj xs) (.vObj zs) p keys (.vObj as) logs = .ok (.vObj ts) L ∧
        plainV (.vObj ts) = true ∧
        ∀ k, (fieldsLookup zs k = none → fieldsLookup ts k = none) ∧
          (∀ g, fieldsLookup zs k = some g → ∃ f, fieldsLookup ts k = some f ∧
            valEquiv f.readVal g.readVal = true) := by
  intro keys
  induction keys with
  | nil =>
    intro _ _ as logs _ hI2 hplain
    refine ⟨as, logs, ?_, hplain, fun k => hI2 k (List.not_mem_nil k)⟩
    rw [applyKeys]
  | cons k0 ks ih =>
    intro hnd hkeys as logs hI1 hI2 hplain
    have hndtail := (List.nodup_cons.mp hnd).2
    have hk0notks : k0 ∉ ks := (List.nodup_cons.mp hnd).1
    have hkeystail : ∀ k ∈ ks,
        (fieldsLookup xs k).isSome = true ∨ (fieldsLookup zs k).isSome = true :=
      fun k hk => hkeys k (List.mem_cons_of_mem _ hk)
    have hacc0 : fieldsLookup as k0 = fieldsLookup xs k0 := hI1 k0 (List.mem_cons_self _ _)
    have glue : ∀ (as1 : List (Fld JSVal)) (l0 : List LogEvent),
        processKey (.vObj xs) (.vObj zs) p k0 (.vObj as) = .cont (.vObj as1) l0 →
        (∀ k', k' ≠ k0 → fieldsLookup as1 k' = fieldsLookup as k') →
        ((fieldsLookup zs k0 = none → fieldsLookup as1 k0 = none) ∧
         (∀ g, fieldsLookup zs k0 = some g → ∃ f, fieldsLookup as1 k0 = some f ∧
           valEquiv f.readVal g.readVal = true)) →
        plainV (.vObj as1) = true →
        ∃ ts L, applyKeys (.vObj xs) (.vObj zs) p (k0 :: ks) (.vObj as) logs = .ok (.vObj ts) L ∧
          plainV (.vObj ts) = true ∧
          ∀ k, (fieldsLookup zs k = none → fieldsLookup ts k = none) ∧
            (∀ g, fieldsLookup zs k = some g → ∃ f, fieldsLookup ts k = some f ∧
              valEquiv f.readVal g.readVal = true) := by
      intro as1 l0 hstep hloc hatk0 hplain1
      have hI1t : ∀ k ∈ ks, fieldsLookup as1 k = fieldsLookup xs k := by
        intro k hk
        have hne : k ≠ k0 := fun he => hk0notks (he ▸ hk)
        rw [hloc k hne]
        exact hI1 k (List.mem_cons_of_mem _ hk)
      have hI2t : ∀ k, k ∉ ks →
          ((fieldsLookup zs k = none → fieldsLookup as1 k = none) ∧
           (∀ g, fieldsLookup zs k = some g → ∃ f, fieldsLookup as1 k = some f ∧
             valEquiv f.readVal g.readVal = true)) := by
        intro k hk
        by_cases hkk : k = k0
        · subst hkk
          exact hatk0
        · have hold := hI2 k (by
            intro hmem
            rcases List.mem_cons.mp hmem with he | hm
            · exact hkk he
            · exact hk hm)
          constructor
          · intro hzn
            rw [hloc k hkk]
            exact hold.1 hzn
          · intro g hg
            obtain ⟨f, hf, hv⟩ := hold.2 g hg
            exact ⟨f, (hloc k hkk).trans hf, hv⟩
      obtain ⟨ts, L, hrun, hpts, hIfin⟩ := ih hndtail hkeystail as1 (logs ++ l0) hI1t hI2t hplain1
      refine ⟨ts, L, ?_, hpts, hIfin⟩
      rw [applyKeys, hstep]
      exact hrun
    cases hx : fieldsLookup xs k0 with
    | some fx =>
      rw [hx] at hacc0
      have hpfx := plainV_lookup hpx hx
      obtain ⟨henum, hconf, vx, hkindx, hrvx, htvx, hpvx⟩ := plainField_data hpfx
      cases hz : fieldsLookup zs k0 with
      | some gz =>
        have hpgz := plainV_lookup hpz hz
        obtain ⟨henumz, hconfz, vz, hkindz, hrvz, htvz, hpvz⟩ := plainField_data hpgz
        by_cases hstr : JSVal.strictEq gz.readVal fx.readVal = true
        · -- identical value: the key is skipped, but the accumulator already matches
          have heq : gz.readVal = fx.readVal := strictEq_eq hstr
          have hpv : JSVal.strictEq (propVal (.vObj zs) k0) (propVal (.vObj xs) k0) = true := by
            simp only [propVal, objLookup, hx, hz]
            exact hstr
          have hstep := processKey_skip xs zs p k0 (.vObj as) hpv
          apply glue as [] hstep (fun _ _ => rfl) ?_ hplain
          constructor
          · intro hzn
            rw [hz] at hzn
            exact Option.noConfusion hzn
          · intro g hg
            rw [hz] at hg
            obtain rfl : gz = g := Option.some.inj hg
            refine ⟨fx, hacc0, ?_⟩
            rw [heq]
            exact valEquiv_refl_plain (sizeOf fx.readVal) fx.readVal le_rfl
              (by rw [hrvx]; exact hpvx)
        · rw [Bool.not_eq_true] at hstr
          by_cases hguard : (gz.readVal.typeofObject && fx.readVal.typeofObject) = true
          · -- both object-typed: `applyChange` recurses; use the oracle
            have hxobj : ∃ xs1, fx.readVal = .vObj xs1 := by
              rw [Bool.and_eq_true] at hguard
              have h2 := hguard.2
              rw [hrvx] at h2 ⊢
              cases vx with
              | vObj l => exact ⟨l, rfl⟩
              | vNull => simp [plainV] at hpvx
              | vUndef => simp [plainV] at hpvx
              | vBool b => simp [JSVal.typeofObject] at h2
              | vNum m => simp [JSVal.typeofObject] at h2
              | vStr st => simp [JSVal.typeofObject] at h2
              | vFun i => simp [JSVal.typeofObject] at h2
            have hzobj : ∃ zs1, gz.readVal = .vObj zs1 := by
              rw [Bool.and_eq_true] at hguard
              have h2 := hguard.1
              rw [hrvz] at h2 ⊢
              cases vz with
              | vObj l => exact ⟨l, rfl⟩
              | vNull => simp [plainV] at hpvz
              | vUndef => simp [plainV] at hpvz
              | vBool b => simp [JSVal.typeofObject] at h2
              | vNum m => simp [JSVal.typeofObject] at h2
              | vStr st => simp [JSVal.typeofObject] at h2
              | vFun i => simp [JSVal.typeofObject] at h2
            obtain ⟨xs1, hxs1⟩ := hxobj
            obtain ⟨zs1, hzs1⟩ := hzobj
            have hpxs1 : plainV (.vObj xs1) = true := by
              rw [← hxs1, hrvx]
              exact hpvx
            have hpzs1 : plainV (.vObj zs1) = true := by
              rw [← hzs1, hrvz]
              exact hpvz
            have hszx := sizeOf_lookup_readVal hx
            have hszz := sizeOf_lookup_readVal hz
            rw [hxs1] at hszx
            rw [hzs1] at hszz
            obtain ⟨ts1, L1, hAC, hpts1, hveq1⟩ :=
              hrec xs1 zs1 (k0 ++ "/") (by omega) hpxs1 hpzs1
            have hstep0 := processKey_recurse xs zs p k0 (.vObj as) hx hz hconf henum hstr hguard
            rw [hxs1, hzs1, hAC] at hstep0
            have hstep : processKey (.vObj xs) (.vObj zs) p k0 (.vObj as) =
                .cont (.vObj (setValFields as k0 (.vObj ts1))) L1 := hstep0
            apply glue (setValFields as k0 (.vObj ts1)) L1 hstep
              (fun k' hk' => setValFields_lookup_ne as k0 k' _ hk') ?_ ?_
            · constructor
              · intro hzn
                rw [hz] at hzn
                exact Option.noConfusion hzn
              · intro g hg
                rw [hz] at hg
                obtain rfl : gz = g := Option.some.inj hg
                refine ⟨{fx with kind := .data (.vObj ts1) true}, ?_, ?_⟩
                · rw [setValFields_lookup_self, hacc0]
                  simp [hkindx]
                · show valEquiv (Fld.readVal {fx with kind := FldKind.data (.vObj ts1) true})
                    gz.readVal = true
                  rw [show Fld.readVal {fx with kind := FldKind.data (.vObj ts1) true} =
                    .vObj ts1 from rfl, hzs1]
                  exact hveq1
            · exact plainV_jsSetVal hplain rfl hpts1
          · -- primitive update: the incoming value replaces the old one
            rw [Bool.not_eq_true] at hguard
            have hstep0 := processKey_update xs zs p k0 (.vObj as) hx hz hconf henum hstr hguard
            have hupd := updateBranch_spec_data p k0 gz.readVal as hacc0 hkindx
            have hstep : processKey (.vObj xs) (.vObj zs) p k0 (.vObj as) =
                .cont (.vObj (setValFields as k0 gz.readVal)) [.updated (p ++ k0) gz.readVal] :=
              hstep0.trans hupd
            apply glue (setValFields as k0 gz.readVal) [.updated (p ++ k0) gz.readVal] hstep
              (fun k' hk' => setValFields_lookup_ne as k0 k' _ hk') ?_ ?_
            · constructor
              · intro hzn
                rw [hz] at hzn
                exact Option.noConfusion hzn
              · intro g hg
                rw [hz] at hg
                obtain rfl : gz = g := Option.some.inj hg
                refine ⟨{fx with kind := .data gz.readVal true}, ?_, ?_⟩
                · rw [setValFields_lookup_self, hacc0]
                  simp [hkindx]
                · show valEquiv (Fld.readVal {fx with kind := FldKind.data gz.readVal true})
                    gz.readVal = true
                  rw [show Fld.readVal {fx with kind := FldKind.data gz.readVal true} =
                    gz.readVal from rfl, hrvz]
                  exact valEquiv_refl_plain (sizeOf vz) vz le_rfl hpvz
            · apply plainV_jsSetVal hplain
              · rw [hrvz]
                exact htvz
              · rw [hrvz]
                exact hpvz
      | none =>
        -- key absent from the incoming tree: the plain field is deleted outright
        have hstrN : JSVal.strictEq .vUndef fx.readVal = false := by
          rw [hrvx]
          exact strictEq_vUndef_left htvx
        have hstep0 := processKey_remove xs zs p k0 fx (.vObj as) hx henum hconf hz hstrN
        have hdesc : fx.descValue.truthy = true := by
          rw [Fld.descValue, hkindx]
          exact htvx
        have hrb : removeBranch p k0 fx (.vObj as) =
            .cont (.vObj (deleteFields as k0)) [.removed (p ++ k0)] := by
          rw [removeBranch, if_pos hdesc]
          rfl
        have hstep := hstep0.trans hrb
        apply glue (deleteFields as k0) [.removed (p ++ k0)] hstep
          (fun k' hk' => deleteFields_lookup_ne as k0 k' hk') ?_ ?_
        · constructor
          · intro _
            exact deleteFields_lookup_self as k0
          · intro g hg
            rw [hz] at hg
            exact Option.noConfusion hg
        · exact plainV_jsDelete hplain
    | none =>
      -- key new in the incoming tree: added as a fresh plain field
      have hzsome : (fieldsLookup zs k0).isSome = true := by
        rcases hkeys k0 (List.mem_cons_self _ _) with h | h
        · rw [hx] at h
          simp at h
        · exact h
      obtain ⟨gz, hz⟩ := Option.isSome_iff_exists.mp hzsome
      have hpgz := plainV_lookup hpz hz
      obtain ⟨henumz, hconfz, vz, hkindz, hrvz, htvz, hpvz⟩ := plainField_data hpgz
      have hstrN : JSVal.strictEq gz.readVal .vUndef = false := by
        rw [hrvz]
        exact strictEq_vUndef_right htvz
      have hstep0 := processKey_add xs zs p k0 (.vObj as) hx hz hstrN
      rw [hx] at hacc0
      obtain ⟨bs, hab, hlookb, hlocb, hplainb⟩ := addBranch_spec_absent p k0 gz.readVal as hacc0
      have hstep := hstep0.trans hab
      apply glue bs [.added (p ++ k0) gz.readVal] hstep hlocb ?_ ?_
      · constructor
        · intro hzn
          rw [hz] at hzn
          exact Option.noConfusion hzn
        · intro g hg
          rw [hz] at hg
          obtain rfl : gz = g := Option.some.inj hg
          refine ⟨plainFld k0 gz.readVal, hlookb, ?_⟩
          show valEquiv gz.readVal gz.readVal = true
          rw [hrvz]
          exact valEquiv_refl_plain (sizeOf vz) vz le_rfl hpvz
      · apply hplainb hplain
        · rw [hrvz]
          exact htvz
        · rw [hrvz]
          exact hpvz

/-- Reconciling any plain tree against any plain incoming tree completes
normally and converges: the mutated tree is plain again and observably
equivalent to the incoming tree. -/
theorem applyChange_plain : ∀ (n : Nat) (xs zs : List (Fld JSVal)) (p : String),
    sizeOf (JSVal.vObj xs) + sizeOf (JSVal.vObj zs) ≤ n →
    plainV (.vObj xs) = true → plainV (.vObj zs) = true →
    ∃ ts L, applyChange (.vObj xs) (.vObj zs) p = .ok (.vObj ts) L ∧
      plainV (.vObj ts) = true ∧ valEquiv (.vObj ts) (.vObj zs) = true := by
  intro n
  induction n with
  | zero =>
    intro xs zs p hs
    simp at hs
  | succ n ih =>
    intro xs zs p hs hpx hpz
    have hrec : ∀ (xs1 zs1 : List (Fld JSVal)) (p1 : String),
        sizeOf (JSVal.vObj xs1) + sizeOf (JSVal.vObj zs1) <
          sizeOf (JSVal.vObj xs) + sizeOf (JSVal.vObj zs) →
        plainV (.vObj xs1) = true → plainV (.vObj zs1) = true →
        ∃ ts L, applyChange (.vObj xs1) (.vObj zs1) p1 = .ok (.vObj ts) L ∧
          plainV (.vObj ts) = true ∧ valEquiv (.vObj ts) (.vObj zs1) = true := by
      intro xs1 zs1 p1 hlt hp1 hp2
      exact ih xs1 zs1 p1 (by omega) hp1 hp2
    have hkeys : ∀ k ∈ unionKeys (.vObj xs) (.vObj zs),
        (fieldsLookup xs k).isSome = true ∨ (fieldsLookup zs k).isSome = true :=
      fun k hk => mem_unionKeys_lookup hk
    have hI2 : ∀ k, k ∉ unionKeys (.vObj xs) (.vObj zs) →
        (fieldsLookup zs k = none → fieldsLookup xs k = none) ∧
        (∀ g, fieldsLookup zs k = some g → ∃ f, fieldsLookup xs k = some f ∧
          valEquiv f.readVal g.readVal = true) := by
      intro k hk
      constructor
      · intro _
        cases hxk : fieldsLookup xs k with
        | none => rfl
        | some f =>
          exfalso
          apply hk
          have he := (plainField_data (plainV_lookup hpx hxk)).1
          rw [unionKeys]
          exact mem_dedupKeys (List.mem_append_left _ (enumKeys_mem_of_lookup hxk he))
      · intro g hg
        exfalso
        apply hk
        have he := (plainField_data (plainV_lookup hpz hg)).1
        rw [unionKeys]
        exact mem_dedupKeys (List.mem_append_right _ (enumKeys_mem_of_lookup hg he))
    obtain ⟨ts, L, hrun, hpts, hIfin⟩ := applyKeys_plain_aux xs zs p hpx hpz hrec
      (unionKeys (.vObj xs) (.vObj zs)) (nodup_dedupKeys _) hkeys xs []
      (fun _ _ => rfl) hI2 hpx
    refine ⟨ts, L, ?_, hpts, ?_⟩
    · rw [applyChange]
      exact hrun
    · rw [valEquiv, Bool.and_eq_true]
      constructor
      · apply fieldsSubEquiv_of_cond
        intro f hm
        have hlt : fieldsLookup ts f.key = some f :=
          fieldsNodup_lookup (plainV_parts hpts).1 hm
        cases hzk : fieldsLookup zs f.key with
        | none =>
          have hnone := (hIfin f.key).1 hzk
          rw [hnone] at hlt
          exact absurd hlt (by simp)
        | some g =>
          obtain ⟨f2, hf2, hv2⟩ := (hIfin f.key).2 g hzk
          rw [hlt] at hf2
          obtain rfl : f = f2 := Option.some.inj hf2
          refine ⟨g, rfl, ?_, hv2⟩
          rw [(plainField_data (plainV_lookup hpts hlt)).1,
            (plainField_data (plainV_lookup hpz hzk)).1]
      · rw [List.all_eq_true]
        intro g hm
        have hzg : fieldsLookup zs g.key = some g :=
          fieldsNodup_lookup (plainV_parts hpz).1 hm
        obtain ⟨f, hf, _⟩ := (hIfin g.key).2 g hzg
        show (fieldsLookup ts g.key).isSome = true
        rw [hf]
        rfl

/-- Evaluation of `applyChange` on a single-key pair of plain data
fields, recursion case: when both values are object-typed the walk
recurses with `k ++ "/"` as the new prefix and stores the mutated child
back. -/
theorem applyChange_singleKey_recurse (p k : String) (u v : JSVal)
    (hne : v.strictEq u = false)
    (hguard : (v.typeofObject && u.typeofObject) = true) :
    applyChange (.vObj [plainFld k u]) (.vObj [plainFld k v]) p =
      (match applyChange u v (k ++ "/") with
       | .ok t l => .ok (.vObj [plainFld k t]) l
       | .thrown e t l => .thrown e (.vObj [plainFld k t]) l) := by
  have hlx : fieldsLookup [plainFld k u] k = some (plainFld k u) := by
    simp [fieldsLookup, plainFld]
  have hlz : fieldsLookup [plainFld k v] k = some (plainFld k v) := by
    simp [fieldsLookup, plainFld]
  have hu : unionKeys (.vObj [plainFld k u]) (.vObj [plainFld k v]) = [k] := by
    simp [unionKeys, enumKeys, dedupKeys, dedupAux, plainFld]
  have hstep := processKey_recurse [plainFld k u] [plainFld k v] p k (.vObj [plainFld k u])
    hlx hlz rfl rfl hne hguard
  have hsv : ∀ t, jsSetVal (.vObj [plainFld k u]) k t = .vObj [plainFld k t] := by
    intro t
    simp [jsSetVal, setValFields, plainFld]
  cases hAC : applyChange u v (k ++ "/") with
  | ok t l =>
    have hAC2 : applyChange (Fld.readVal (plainFld k u)) (Fld.readVal (plainFld k v))
        (k ++ "/") = .ok t l := hAC
    rw [hAC2] at hstep
    rw [applyChange, hu, applyKeys, hstep]
    show applyKeys (.vObj [plainFld k u]) (.vObj [plainFld k v]) p []
      (jsSetVal (.vObj [plainFld k u]) k t) ([] ++ l) = _
    rw [applyKeys, hsv t]
    rfl
  | thrown e t l =>
    have hAC2 : applyChange (Fld.readVal (plainFld k u)) (Fld.readVal (plainFld k v))
        (k ++ "/") = .thrown e t l := hAC
    rw [hAC2] at hstep
    rw [applyChange, hu, applyKeys, hstep]
    show ACResult.thrown e (jsSetVal (.vObj [plainFld k u]) k t) ([] ++ l) = _
    rw [hsv t]
    rfl

/-- Evaluation of `applyChange` on a single-key pair of plain data
fields, update case: when at least one side is not object-typed the
incoming value replaces the old one and an `updated` event is reported
under the accumulated prefix. -/
theorem applyChange_singleKey_update (p k : String) (u v : JSVal)
    (hne : v.strictEq u = false)
    (hguard : (v.typeofObject && u.typeofObject) = false) :
    applyChange (.vObj [plainFld k u]) (.vObj [plainFld k v]) p =
      .ok (.vObj [plainFld k v]) [.updated (p ++ k) v] := by
  have hlx : fieldsLookup [plainFld k u] k = some (plainFld k u) := by
    simp [fieldsLookup, plainFld]
  have hlz : fieldsLookup [plainFld k v] k = some (plainFld k v) := by
    simp [fieldsLookup, plainFld]
  have hu : unionKeys (.vObj [plainFld k u]) (.vObj [plainFld k v]) = [k] := by
    simp [unionKeys, enumKeys, dedupKeys, dedupAux, plainFld]
  have hstep := processKey_update [plainFld k u] [plainFld k v] p k (.vObj [plainFld k u])
    hlx hlz rfl rfl hne hguard
  have hupd := updateBranch_spec_data p k ((plainFld k v).readVal) [plainFld k u] hlx rfl
  have hsv : jsSetVal (.vObj [plainFld k u]) k ((plainFld k v).readVal) =
      .vObj [plainFld k ((plainFld k v).readVal)] := by
    simp [jsSetVal, setValFields, plainFld]
  rw [applyChange, hu, applyKeys, hstep, hupd]
  show applyKeys (.vObj [plainFld k u]) (.vObj [plainFld k v]) p []
    (jsSetVal (.vObj [plainFld k u]) k ((plainFld k v).readVal))
    ([] ++ [.updated (p ++ k) ((plainFld k v).readVal)]) = _
  rw [applyKeys, hsv]
  rfl

/-! ## Claim theorems -/

/-- C1 (counterexample).  The claim says reconciling the deletion diff
`{a: {b: null}}` against a target containing `a.b` removes or hides that
field.  It does not: on the target `{a: {b: 1}}`, `applyChange` takes the
update branch for the inner key (a `null` leaf is an ordinary value to
it) and assigns `null`, so afterwards `a.b` is still an own, enumerable
property — neither removed nor hidden. -/
theorem claim1_counterexample :
    applyChange (c1TargetW (.vNum 1)) c1Diff "" =
      .ok (.vObj [plainFld "a" (.vObj [plainFld "b" .vNull])])
        [.updated "a/b" .vNull] ∧
    hasOwnB (propVal (applyChange (c1TargetW (.vNum 1)) c1Diff "").tree "a") "b" = true ∧
    isEnumB (propVal (applyChange (c1TargetW (.vNum 1)) c1Diff "").tree "a") "b" = true := by
  have h1 : applyChange (.vObj [plainFld "b" (.vNum 1)]) (.vObj [plainFld "b" .vNull])
      ("a" ++ "/") = .ok (.vObj [plainFld "b" .vNull]) [.updated "a/b" .vNull] :=
    applyChange_singleKey_update _ _ _ _ rfl rfl
  have h2 : applyChange (c1TargetW (.vNum 1)) c1Diff "" =
      (match applyChange (.vObj [plainFld "b" (.vNum 1)]) (.vObj [plainFld "b" .vNull])
          ("a" ++ "/") with
       | .ok t l => .ok (.vObj [plainFld "a" t]) l
       | .thrown e t l => .thrown e (.vObj [plainFld "a" t]) l) :=
    applyChange_singleKey_recurse _ _ _ _ rfl rfl
  rw [h1] at h2
  have h3 : applyChange (c1TargetW (.vNum 1)) c1Diff "" =
      .ok (.vObj [plainFld "a" (.vObj [plainFld "b" .vNull])]) [.updated "a/b" .vNull] := h2
  refine ⟨h3, ?_, ?_⟩
  · rw [h3]
    rfl
  · rw [h3]
    rfl

/-- C2 (code bug).  Coalescing claims every synchronous mutation of a
turn appears in the single delivered DiffTree.  After a first turn with
two mutations under `a.b` (which leaves the child node's `store` pointing
into the flushed diff object — `DeepObserve.prototype.get` refreshes a
child's `store` only when the parent's `store` is truthy, and the flush
resets only `top.store`), the single mutation `state.a.b.e = 9` of the
next turn is written into the detached previous diff object:
`nextCallback` returns the stale `this.store`, so `top.store` stays empty
and the callback for turn 2 receives `{}`, losing the change.  Exactly
one callback does fire per turn, but its diff is wrong. -/
theorem claim2_code_bug_eval :
    c2Calls =
      [.vObj [plainFld "a" (.vObj [plainFld "b"
          (.vObj [plainFld "c" (.vNum 1), plainFld "d" (.vNum 2)])])],
       .vObj []] :=
  rfl

/-- C3 (code bug).  Sparsity claims a single mutation to `a.b.c` in one
turn yields the DiffTree `{a: {b: {c: value}}}`.  From a fresh observer it
does (first conjunct), but in the reachable state left by a previous
multi-mutation turn under `a.b` the same single mutation delivers `{}`
(second conjunct): the stale child `store` swallows the write, exactly as
in the coalescing bug. -/
theorem claim3_code_bug_eval :
    c3FreshCalls = [.vObj [plainFld "a" (.vObj [plainFld "b" (.vObj [plainFld "c" (.vNum 3)])])]] ∧
    c3Calls =
      [.vObj [plainFld "a" (.vObj [plainFld "b"
          (.vObj [plainFld "x" (.vNum 1), plainFld "y" (.vNum 2)])])],
       .vObj []] :=
  ⟨rfl, rfl⟩

/-- C4 (confirmed).  For every reconciliation in which the previous
tree's key `k` is non-configurable (locked) and enumerable, and the
incoming tree supplies a value for it different from the current one
(identical values are skipped silently by step 1 of the walk, per the
spec's own ordering), a normally-completed `applyChange` leaves the
field's descriptor exactly as it was, reports the locked-property
failure, and has continued with the remaining keys. -/
theorem claim4_locked_preserved (fs gs : List (Fld JSVal)) (p k : String) (f : Fld JSVal)
    (hlook : fieldsLookup fs k = some f)
    (henum : f.enumerable = true)
    (hconf : f.configurable = false)
    (hhasNew : (fieldsLookup gs k).isSome = true)
    (hne : JSVal.strictEq (propVal (.vObj gs) k) f.readVal = false) :
    ∀ t logs, applyChange (.vObj fs) (.vObj gs) p = .ok t logs →
      objLookup t k = some f ∧ LogEvent.lockedErr k ∈ logs := by
  intro t logs happ
  rw [applyChange] at happ
  have hmem : k ∈ unionKeys (.vObj fs) (.vObj gs) := by
    apply mem_dedupKeys
    apply List.mem_append_left
    rw [enumKeys]
    exact List.mem_map.mpr ⟨f, List.mem_filter.mpr ⟨fieldsLookup_mem hlook, henum⟩,
      fieldsLookup_key hlook⟩
  have haux := applyKeys_step_at_key (.vObj fs) (.vObj gs) p k [.lockedErr k] (some f)
    (unionKeys (.vObj fs) (.vObj gs)) (.vObj fs) [] hmem (nodup_dedupKeys _)
    (fun a ha => ⟨a, processKey_locked fs gs p k f a hlook hconf hhasNew hne,
      ha.trans (show objLookup (.vObj fs) k = some f from hlook)⟩)
    t logs happ
  exact ⟨haux.1, haux.2 _ (List.mem_cons_self _ _)⟩

/-- Witness for C4: `previous = {x: 1 (locked), z: 3}`,
`incoming = {x: 2, z: 4}` — `x` keeps its old descriptor and value, the
locked failure is reported, and reconciliation continued (`z` was
updated to 4 in the computed run). -/
theorem claim4_witness :
    objLookup (applyChange (.vObj [⟨"x", true, false, .data (.vNum 1) true⟩,
        plainFld "z" (.vNum 3)])
      (.vObj [plainFld "x" (.vNum 2), plainFld "z" (.vNum 4)]) "").tree "x" =
      some ⟨"x", true, false, .data (.vNum 1) true⟩ ∧
    LogEvent.lockedErr "x" ∈ (applyChange (.vObj [⟨"x", true, false, .data (.vNum 1) true⟩,
        plainFld "z" (.vNum 3)])
      (.vObj [plainFld "x" (.vNum 2), plainFld "z" (.vNum 4)]) "").logs := by
  have heq : applyChange (.vObj [⟨"x", true, false, .data (.vNum 1) true⟩,
        plainFld "z" (.vNum 3)])
      (.vObj [plainFld "x" (.vNum 2), plainFld "z" (.vNum 4)]) "" =
      .ok (.vObj [⟨"x", true, false, .data (.vNum 1) true⟩, plainFld "z" (.vNum 4)])
        [.lockedErr "x", .updated "z" (.vNum 4)] := by
    simp [applyChange, applyKeys, processKey, addBranch, removeBranch, updateBranch,
      unionKeys, enumKeys, dedupKeys, dedupAux, readProp, fieldsLookup, objLookup, hasOwnB,
      jsAssign, assignFields, JSVal.strictEq, JSVal.typeofObject, Fld.readVal, plainFld]
  have h := claim4_locked_preserved [⟨"x", true, false, .data (.vNum 1) true⟩,
      plainFld "z" (.vNum 3)]
    [plainFld "x" (.vNum 2), plainFld "z" (.vNum 4)] "" "x"
    ⟨"x", true, false, .data (.vNum 1) true⟩ rfl rfl rfl rfl rfl _ _ heq
  rw [heq]
  exact ⟨h.1, h.2⟩

/-- C5 (amended).  For every key that is enumerable and configurable on
the previous tree, absent from the incoming tree, and whose read value
is not `undefined` (otherwise the identity check of step 1 skips the key
entirely), a normally-completed `applyChange` reports a `removed` event
and: if the descriptor's `value` attribute is truthy, the field is
deleted outright; otherwise — accessor-backed fields, and also plain
value-holding fields with a falsy value — the setter (when present) has
been invoked with `undefined` and the field is hidden (still an own
property, no longer enumerable). -/
theorem claim5_amended (fs gs : List (Fld JSVal)) (p k : String) (f : Fld JSVal)
    (hlook : fieldsLookup fs k = some f)
    (henum : f.enumerable = true)
    (hconf : f.configurable = true)
    (habsent : fieldsLookup gs k = none)
    (hne : JSVal.strictEq .vUndef f.readVal = false) :
    ∀ t logs, applyChange (.vObj fs) (.vObj gs) p = .ok t logs →
      LogEvent.removed (p ++ k) ∈ logs ∧
      objLookup t k = (if f.descValue.truthy then none else some (hiddenFld f)) := by
  intro t logs happ
  rw [applyChange] at happ
  have hmem : k ∈ unionKeys (.vObj fs) (.vObj gs) := by
    apply mem_dedupKeys
    apply List.mem_append_left
    rw [enumKeys]
    exact List.mem_map.mpr ⟨f, List.mem_filter.mpr ⟨fieldsLookup_mem hlook, henum⟩,
      fieldsLookup_key hlook⟩
  have haux := applyKeys_step_at_key (.vObj fs) (.vObj gs) p k [.removed (p ++ k)]
    (if f.descValue.truthy then none else some (hiddenFld f))
    (unionKeys (.vObj fs) (.vObj gs)) (.vObj fs) [] hmem (nodup_dedupKeys _)
    (fun a ha => by
      obtain ⟨a2, hrb, hl⟩ := removeBranch_spec p k f a
        (ha.trans (show objLookup (.vObj fs) k = some f from hlook))
      exact ⟨a2, (processKey_remove fs gs p k f a hlook henum hconf habsent hne).trans hrb, hl⟩)
    t logs happ
  exact ⟨haux.2 _ (List.mem_cons_self _ _), haux.1⟩

/-- Witness for the amended C5 at its two concrete poles:
`{y: 1}` against `{}` deletes `y` outright (truthy value), while
`{y: 0}` against `{}` hides `y` (falsy value); both report removed
events. -/
theorem claim5_witness :
    (LogEvent.removed "y" ∈ (applyChange (.vObj [plainFld "y" (.vNum 1)]) (.vObj []) "").logs ∧
      objLookup (applyChange (.vObj [plainFld "y" (.vNum 1)]) (.vObj []) "").tree "y" = none) ∧
    (LogEvent.removed "y" ∈ (applyChange (.vObj [plainFld "y" (.vNum 0)]) (.vObj []) "").logs ∧
      objLookup (applyChange (.vObj [plainFld "y" (.vNum 0)]) (.vObj []) "").tree "y" =
        some ⟨"y", false, true, .data (.vNum 0) true⟩) := by
  have heq1 : applyChange (.vObj [plainFld "y" (.vNum 1)]) (.vObj []) "" =
      .ok (.vObj []) [.removed "y"] := by
    simp [applyChange, applyKeys, processKey, addBranch, removeBranch, updateBranch,
      unionKeys, enumKeys, dedupKeys, dedupAux, readProp, fieldsLookup, objLookup, hasOwnB,
      jsDelete, deleteFields, JSVal.strictEq, JSVal.truthy, Fld.readVal, Fld.descValue,
      plainFld]
  have heq0 : applyChange (.vObj [plainFld "y" (.vNum 0)]) (.vObj []) "" =
      .ok (.vObj [⟨"y", false, true, .data (.vNum 0) true⟩]) [.removed "y"] := by
    simp [applyChange, applyKeys, processKey, addBranch, removeBranch, updateBranch,
      unionKeys, enumKeys, dedupKeys, dedupAux, readProp, fieldsLookup, objLookup, hasOwnB,
      jsSetEnum, setEnumFields, JSVal.strictEq, JSVal.truthy, Fld.readVal, Fld.descValue,
      plainFld]
  have h1 := claim5_amended [plainFld "y" (.vNum 1)] [] "" "y" (plainFld "y" (.vNum 1))
    rfl rfl rfl rfl rfl _ _ heq1
  have h0 := claim5_amended [plainFld "y" (.vNum 0)] [] "" "y" (plainFld "y" (.vNum 0))
    rfl rfl rfl rfl rfl _ _ heq0
  constructor
  · rw [heq1]
    exact ⟨h1.1, h1.2⟩
  · rw [heq0]
    exact ⟨h0.1, h0.2⟩

/-- C5 (counterexample).  The claim says a plain value-holding field
absent from the incoming tree is deleted outright.  But the removal
branch of `applyChange` (line 206) tests `descriptor.value` for
truthiness, not for being a data property: for `previous = {y: 0}` and
`incoming = {}` the plain value-held `y` is hidden (still an own
property, made non-enumerable) instead of being deleted. -/
theorem claim5_counterexample :
    applyChange c5Prev (.vObj []) "" =
      .ok (.vObj [⟨"y", false, true, .data (.vNum 0) true⟩]) [.removed "y"] ∧
    hasOwnB (applyChange c5Prev (.vObj []) "").tree "y" = true ∧
    isEnumB (applyChange c5Prev (.vObj []) "").tree "y" = false := by
  simp [applyChange, applyKeys, processKey, addBranch, removeBranch, updateBranch, unionKeys, enumKeys, dedupKeys, dedupAux, readProp,
        fieldsLookup, objLookup, hasOwnB, isEnumB, propVal, jsAssign, assignFields, jsDelete,
        deleteFields, jsSetEnum, setEnumFields, jsClearSlot, clearSlotFields, jsSetVal,
        setValFields, JSVal.strictEq, JSVal.typeofObject, JSVal.truthy, Fld.readVal,
        Fld.descValue, ACResult.tree, ACResult.logs, ACResult.isThrown, plainFld, c5Prev]

/-- C6 (counterexample).  The claim says the recursive call receives the
accumulated prefix `pathPrefix + key + "/"`, so deeper reports carry the
full path from the root.  The code (line 223) passes `key + '/'` alone:
updating `a.b.c` reports the path `"b/c"`, not `"a/b/c"`. -/
theorem claim6_counterexample :
    (applyChange c6Old c6New "").logs = [.updated "b/c" (.vNum 2)] ∧
    ("b/c" = "a/b/c" → False) := by
  have h1 : applyChange (.vObj [plainFld "c" (.vNum 1)]) (.vObj [plainFld "c" (.vNum 2)])
      ("b" ++ "/") = .ok (.vObj [plainFld "c" (.vNum 2)]) [.updated "b/c" (.vNum 2)] :=
    applyChange_singleKey_update _ _ _ _ rfl rfl
  have h2 : applyChange (.vObj [plainFld "b" (.vObj [plainFld "c" (.vNum 1)])])
      (.vObj [plainFld "b" (.vObj [plainFld "c" (.vNum 2)])]) ("a" ++ "/") =
      (match applyChange (.vObj [plainFld "c" (.vNum 1)]) (.vObj [plainFld "c" (.vNum 2)])
          ("b" ++ "/") with
       | .ok t l => .ok (.vObj [plainFld "b" t]) l
       | .thrown e t l => .thrown e (.vObj [plainFld "b" t]) l) :=
    applyChange_singleKey_recurse _ _ _ _ rfl rfl
  rw [h1] at h2
  have h2b : applyChange (.vObj [plainFld "b" (.vObj [plainFld "c" (.vNum 1)])])
      (.vObj [plainFld "b" (.vObj [plainFld "c" (.vNum 2)])]) ("a" ++ "/") =
      .ok (.vObj [plainFld "b" (.vObj [plainFld "c" (.vNum 2)])])
        [.updated "b/c" (.vNum 2)] := h2
  have h3 : applyChange c6Old c6New "" =
      (match applyChange (.vObj [plainFld "b" (.vObj [plainFld "c" (.vNum 1)])])
          (.vObj [plainFld "b" (.vObj [plainFld "c" (.vNum 2)])]) ("a" ++ "/") with
       | .ok t l => .ok (.vObj [plainFld "a" t]) l
       | .thrown e t l => .thrown e (.vObj [plainFld "a" t]) l) :=
    applyChange_singleKey_recurse _ _ _ _ rfl rfl
  rw [h2b] at h3
  refine ⟨?_, by decide⟩
  rw [h3]
  rfl

/-- C7 (counterexample).  Round-trip convergence fails: with
`T = {y: 0}`, `T2 = {}` and the full snapshot `T3 = {y: 0}`, the
intermediate reconciliation hides `y` (falsy value, so the removal branch
hides instead of deleting), and the second reconciliation skips it
because the values are strictly equal — so `y` stays hidden, while the
direct reconciliation leaves `y` enumerable.  The two final states are
observably inequivalent. -/
theorem claim7_counterexample :
    isEnumB c7TwoStep "y" = false ∧
    isEnumB c7Direct "y" = true ∧
    valEquiv c7TwoStep c7Direct = false := by
  simp [applyChange, applyKeys, processKey, addBranch, removeBranch, updateBranch, unionKeys, enumKeys, dedupKeys, dedupAux, readProp,
        fieldsLookup, objLookup, hasOwnB, isEnumB, propVal, jsAssign, assignFields, jsDelete,
        deleteFields, jsSetEnum, setEnumFields, jsClearSlot, clearSlotFields, jsSetVal,
        setValFields, JSVal.strictEq, JSVal.typeofObject, JSVal.truthy, Fld.readVal,
        Fld.descValue, ACResult.tree, ACResult.logs, ACResult.isThrown, plainFld, c7T, c7T2, c7T3, c7TwoStep, c7Direct, valEquiv, fieldsSubEquiv]

/-- C9 (confirmed).  `Server.prototype.on` with a non-string event or a
non-function callback throws a TypeError synchronously to the caller
before touching any state, so no listener is registered and nothing is
retried. -/
theorem claim9_on_invalid (st : ServerSt) (event cb : JSVal)
    (h : isStringV event = false ∨ isFunctionV cb = false) :
    serverOn st event cb = .error .typeError := by
  cases h with
  | inl h1 => simp [serverOn, h1]
  | inr h2 =>
    by_cases he : isStringV event = true
    · simp [serverOn, he, h2]
    · simp [serverOn, he]

/-- Witness for C9 at a concrete input: registering with the number `3`
as the event name throws; the server state is untouched (the error is
raised before any mutation). -/
theorem claim9_witness :
    serverOn ⟨[("preload", ⟨[], true⟩)], []⟩ (.vNum 3) (.vFun 0) = .error .typeError :=
  claim9_on_invalid ⟨[("preload", ⟨[], true⟩)], []⟩ (.vNum 3) (.vFun 0) (Or.inl rfl)

/-- C1 (amended).  Deleting `a.b` through the observed proxy does produce
the diff `{a: {b: null}}` (first conjunct, the concrete run of the
operational model).  Reconciling that diff against a target whose `a.b`
holds any non-object-typed value assigns `null` to `a.b` and reports an
`updated` event: the field stays present and enumerable — it is neither
removed nor hidden (removal happens only for keys absent from the
incoming tree). -/
theorem claim1_amended (w : JSVal) (hw : w.typeofObject = false) :
    c1Delivered = [c1Diff] ∧
    applyChange (c1TargetW w) c1Diff "" =
      .ok (.vObj [plainFld "a" (.vObj [plainFld "b" .vNull])])
        [.updated "a/b" .vNull] ∧
    isEnumB (propVal (applyChange (c1TargetW w) c1Diff "").tree "a") "b" = true := by
  have hne : JSVal.strictEq .vNull w = false := by
    cases w <;> first | rfl | simp [JSVal.typeofObject] at hw
  have hguard : (JSVal.typeofObject .vNull && w.typeofObject) = false := by
    rw [hw]
    rfl
  have h1 : applyChange (.vObj [plainFld "b" w]) (.vObj [plainFld "b" .vNull]) ("a" ++ "/") =
      .ok (.vObj [plainFld "b" .vNull]) [.updated "a/b" .vNull] :=
    applyChange_singleKey_update _ _ _ _ hne hguard
  have h2 : applyChange (c1TargetW w) c1Diff "" =
      (match applyChange (.vObj [plainFld "b" w]) (.vObj [plainFld "b" .vNull])
          ("a" ++ "/") with
       | .ok t l => .ok (.vObj [plainFld "a" t]) l
       | .thrown e t l => .thrown e (.vObj [plainFld "a" t]) l) :=
    applyChange_singleKey_recurse _ _ _ _ rfl rfl
  rw [h1] at h2
  have h3 : applyChange (c1TargetW w) c1Diff "" =
      .ok (.vObj [plainFld "a" (.vObj [plainFld "b" .vNull])]) [.updated "a/b" .vNull] := h2
  refine ⟨rfl, h3, ?_⟩
  rw [h3]
  rfl

/-- Witness for the amended C1 at the concrete leaf `a.b = 7`. -/
theorem claim1_witness :
    c1Delivered = [c1Diff] ∧
    applyChange (c1TargetW (.vNum 7)) c1Diff "" =
      .ok (.vObj [plainFld "a" (.vObj [plainFld "b" .vNull])])
        [.updated "a/b" .vNull] ∧
    isEnumB (propVal (applyChange (c1TargetW (.vNum 7)) c1Diff "").tree "a") "b" = true :=
  claim1_amended (.vNum 7) rfl

/-- C6 (amended).  For a single-key pair of plain objects the walk
recurses exactly when both `typeof newObj[key]` and `typeof oldObj[key]`
are `'object'` (which includes `null`), and the recursive call receives
`key + "/"` alone as its path prefix — the incoming prefix `p` is
discarded, as the statement shows by being independent of `p`; otherwise
(one side not object-typed) the update branch assigns and reports under
the accumulated prefix. -/
theorem claim6_amended (p k : String) (u v : JSVal) (hne : v.strictEq u = false) :
    ((v.typeofObject && u.typeofObject) = true →
      applyChange (.vObj [plainFld k u]) (.vObj [plainFld k v]) p =
        (match applyChange u v (k ++ "/") with
         | .ok t l => .ok (.vObj [plainFld k t]) l
         | .thrown e t l => .thrown e (.vObj [plainFld k t]) l)) ∧
    ((v.typeofObject && u.typeofObject) = false →
      applyChange (.vObj [plainFld k u]) (.vObj [plainFld k v]) p =
        .ok (.vObj [plainFld k v]) [.updated (p ++ k) v]) := by
  exact ⟨fun hg => applyChange_singleKey_recurse p k u v hne hg,
    fun hg => applyChange_singleKey_update p k u v hne hg⟩

/-- Witness for the amended C6: with an accumulated prefix `"a/"`, the
recursion case reports `"b/x"` (not `"a/b/x"`), and the non-object case
updates under `"a/b"`. -/
theorem claim6_witness :
    applyChange (.vObj [plainFld "b" (.vObj [plainFld "x" (.vNum 1)])])
        (.vObj [plainFld "b" (.vObj [plainFld "x" (.vNum 2)])]) "a/" =
      .ok (.vObj [plainFld "b" (.vObj [plainFld "x" (.vNum 2)])])
        [.updated "b/x" (.vNum 2)] ∧
    applyChange (.vObj [plainFld "b" (.vNum 1)]) (.vObj [plainFld "b" (.vNum 2)]) "a/" =
      .ok (.vObj [plainFld "b" (.vNum 2)]) [.updated "a/b" (.vNum 2)] := by
  constructor
  · have h := (claim6_amended "a/" "b" (.vObj [plainFld "x" (.vNum 1)])
      (.vObj [plainFld "x" (.vNum 2)]) rfl).1 rfl
    rw [h]
    have e : ("b" ++ "/" : String) = "b/" := rfl
    rw [e]
    have h2 := (claim6_amended "b/" "x" (.vNum 1) (.vNum 2) rfl).2 rfl
    rw [h2]
    rfl
  · exact (claim6_amended "a/" "b" (.vNum 1) (.vNum 2) rfl).2 rfl

/-- C8 (confirmed).  After `observe` installs the binding: reading the
bound property returns the tracked proxy view whenever the current value
is an object and passes scalars through verbatim; writing it replaces the
value wholesale and emits the whole new raw value to the callback —
synchronously when no flush is pending, otherwise staged as the top
node's `store` and delivered by the next tick. -/
theorem claim8_binding_invariant (st : ObsState) :
    (isObjHV st.bindingValue = true → ∃ t, (observeGet st).2 = .proxyView t) ∧
    (isObjHV st.bindingValue = false → (observeGet st).2 = .scalar st.bindingValue) ∧
    (∀ v, (observeSet st v).bindingValue = v) ∧
    (∀ v, st.wait = false → (observeSet st v).calls = st.calls ++ [snapshot st.heap v]) ∧
    (∀ v, st.wait = true → (tick (observeSet st v)).calls = st.calls ++ [snapshot st.heap v]) := by
  refine ⟨?_, ?_, ?_, ?_, ?_⟩
  · intro h
    cases hb : st.bindingValue <;> simp [isObjHV, hb] at h
    case hObj a =>
      cases hp : st.top.proxy with
      | some pa => exact ⟨pa, by simp [observeGet, hb, hp]⟩
      | none => exact ⟨a, by simp [observeGet, hb, hp]⟩
  · intro h
    cases hb : st.bindingValue <;> simp [isObjHV, hb] at h <;>
      simp [observeGet, hb]
  · intro v
    cases hp : st.top.proxy <;> cases hw : st.wait <;>
      simp [observeSet, hp, hw]
  · intro v hw
    cases hp : st.top.proxy <;> simp [observeSet, hp, hw]
  · intro v hw
    cases hp : st.top.proxy <;>
      cases st with
      | mk heap bv be top wait cb calls =>
        cases top with
        | mk t s pr c =>
          simp at hw hp
          subst hw
          simp [observeSet, hp, tick, ONode.setProxy, ONode.setStore, ONode.store,
            ONode.proxy] at *
          simp [hp]

/-- Witness for C8 at the concrete freshly-observed state `c1Obs`
(object-valued binding, no pending flush) and its waiting variant. -/
theorem claim8_witness :
    (∃ t, (observeGet c1Obs).2 = .proxyView t) ∧
    (observeSet c1Obs (.hNum 5)).bindingValue = .hNum 5 ∧
    (observeSet c1Obs (.hNum 5)).calls = c1Obs.calls ++ [snapshot c1Obs.heap (.hNum 5)] ∧
    (tick (observeSet { c1Obs with wait := true } (.hNum 5))).calls =
      c1Obs.calls ++ [snapshot c1Obs.heap (.hNum 5)] :=
  ⟨(claim8_binding_invariant c1Obs).1 rfl,
   (claim8_binding_invariant c1Obs).2.2.1 (.hNum 5),
   (claim8_binding_invariant c1Obs).2.2.2.1 (.hNum 5) rfl,
   (claim8_binding_invariant { c1Obs with wait := true }).2.2.2.2 (.hNum 5) rfl⟩

/-- C10 (amended).  When the previous tree's first field holds an object
with at least one own enumerable key and the incoming tree holds `null`
for that key, `applyChange` recurses with `null` as the incoming tree and
throws a TypeError reading a property of `null`; the exception propagates
to the caller and every key of that level is left unreconciled — the
returned tree is exactly the previous tree and no report was issued.  (As
the counterexample shows, the original claim's "for every key" fails when
the nested object has no own enumerable keys.) -/
theorem claim10_amended (p k : String) (g1 : Fld JSVal) (gs rest : List (Fld JSVal))
    (wr dw : Bool) (hs : List (Fld JSVal)) (nf : Fld JSVal)
    (hg1 : g1.enumerable = true)
    (hlook : fieldsLookup hs k = some nf)
    (hkind : nf.kind = .data .vNull dw) :
    applyChange (.vObj (⟨k, true, true, .data (.vObj (g1 :: gs)) wr⟩ :: rest)) (.vObj hs) p =
      .thrown .typeError (.vObj (⟨k, true, true, .data (.vObj (g1 :: gs)) wr⟩ :: rest)) [] := by
  simp [applyChange, applyKeys, processKey, addBranch, removeBranch, updateBranch, unionKeys, enumKeys, dedupKeys, dedupAux, readProp,
    fieldsLookup, objLookup, hasOwnB, jsSetVal, setValFields, Fld.readVal, JSVal.strictEq,
    JSVal.typeofObject, hlook, hkind, hg1]

/-- Witness for the amended C10: `previous = {a: {x: 1}, z: 3}`,
`incoming = {a: null, q: 9}` — reconciliation throws, `previous` is
returned unchanged, and the remaining keys `z` and `q` were never
visited. -/
theorem claim10_witness :
    applyChange (.vObj [⟨"a", true, true, .data (.vObj [plainFld "x" (.vNum 1)]) true⟩,
        plainFld "z" (.vNum 3)])
      (.vObj [plainFld "a" .vNull, plainFld "q" (.vNum 9)]) "" =
      .thrown .typeError
        (.vObj [⟨"a", true, true, .data (.vObj [plainFld "x" (.vNum 1)]) true⟩,
          plainFld "z" (.vNum 3)]) [] :=
  claim10_amended "" "a" (plainFld "x" (.vNum 1)) [] [plainFld "z" (.vNum 3)] true true
    [plainFld "a" .vNull, plainFld "q" (.vNum 9)] (plainFld "a" .vNull) rfl rfl rfl

/-- C10 (counterexample).  The claim says `applyChange` throws for every
key whose previous value is a non-null object and whose incoming value is
`null`.  When the previous value is an object with no own enumerable keys
— `previous = {a: {}}`, `incoming = {a: null}` — the recursion iterates
over no keys, never reads a property of `null`, and returns normally. -/
theorem claim10_counterexample :
    applyChange c10Prev c10In "" = .ok c10Prev [] := by
  simp [applyChange, applyKeys, processKey, addBranch, removeBranch, updateBranch, unionKeys, enumKeys, dedupKeys, dedupAux, readProp,
        fieldsLookup, objLookup, hasOwnB, isEnumB, propVal, jsAssign, assignFields, jsDelete,
        deleteFields, jsSetEnum, setEnumFields, jsClearSlot, clearSlotFields, jsSetVal,
        setValFields, JSVal.strictEq, JSVal.typeofObject, JSVal.truthy, Fld.readVal,
        Fld.descValue, ACResult.tree, ACResult.logs, ACResult.isThrown, plainFld, c10Prev, c10In]

/-- **C7 (corrected).**  The spec's round-trip property holds on the
domain where it can hold: plain trees (duplicate-free, enumerable,
configurable, writable data fields with truthy leaves — no locked,
hidden or accessor-backed fields and no falsy values, which the
counterexample shows break convergence).  For plain `T`, `T2` and a
plain full snapshot `T3`, reconciling `T` with `T2` and then the result
with `T3` completes normally, as does reconciling `T` with `T3`
directly, and both final trees are observably equivalent to the
snapshot `T3` — idempotent convergence regardless of the intermediate
state. -/
theorem claim7_amended (ts1 ts2 ts3 : List (Fld JSVal)) (p : String)
    (hp1 : plainV (.vObj ts1) = true) (hp2 : plainV (.vObj ts2) = true)
    (hp3 : plainV (.vObj ts3) = true) :
    ∃ u1 L1 u12 L12 ud Ld,
      applyChange (.vObj ts1) (.vObj ts2) p = .ok u1 L1 ∧
      applyChange u1 (.vObj ts3) p = .ok u12 L12 ∧
      applyChange (.vObj ts1) (.vObj ts3) p = .ok ud Ld ∧
      valEquiv u12 (.vObj ts3) = true ∧ valEquiv ud (.vObj ts3) = true := by
  obtain ⟨u1, L1, h1, hpu1, _⟩ := applyChange_plain
    (sizeOf (JSVal.vObj ts1) + sizeOf (JSVal.vObj ts2)) ts1 ts2 p le_rfl hp1 hp2
  obtain ⟨u12, L12, h12, _, hv12⟩ := applyChange_plain
    (sizeOf (JSVal.vObj u1) + sizeOf (JSVal.vObj ts3)) u1 ts3 p le_rfl hpu1 hp3
  obtain ⟨ud, Ld, hd, _, hvd⟩ := applyChange_plain
    (sizeOf (JSVal.vObj ts1) + sizeOf (JSVal.vObj ts3)) ts1 ts3 p le_rfl hp1 hp3
  exact ⟨.vObj u1, L1, .vObj u12, L12, .vObj ud, Ld, h1, h12, hd, hv12, hvd⟩

/-- Witness for `claim7_amended`: the plain trees `{y: 1}`, `{z: 2}` and
the snapshot `{y: 3}` satisfy its hypotheses and hence its round-trip
conclusion. -/
theorem claim7_witness :
    plainV (.vObj [plainFld "y" (.vNum 1)]) = true ∧
    plainV (.vObj [plainFld "z" (.vNum 2)]) = true ∧
    plainV (.vObj [plainFld "y" (.vNum 3)]) = true ∧
    ∃ u1 L1 u12 L12 ud Ld,
      applyChange (.vObj [plainFld "y" (.vNum 1)]) (.vObj [plainFld "z" (.vNum 2)]) "" = .ok u1 L1 ∧
      applyChange u1 (.vObj [plainFld "y" (.vNum 3)]) "" = .ok u12 L12 ∧
      applyChange (.vObj [plainFld "y" (.vNum 1)]) (.vObj [plainFld "y" (.vNum 3)]) "" = .ok ud Ld ∧
      valEquiv u12 (.vObj [plainFld "y" (.vNum 3)]) = true ∧
      valEquiv ud (.vObj [plainFld "y" (.vNum 3)]) = true := by
  have hp1 : plainV (.vObj [plainFld "y" (.vNum 1)]) = true := by
    simp [plainV, plainFields, plainField, fieldsNodup, plainFld, JSVal.truthy]
  have hp2 : plainV (.vObj [plainFld "z" (.vNum 2)]) = true := by
    simp [plainV, plainFields, plainField, fieldsNodup, plainFld, JSVal.truthy]
  have hp3 : plainV (.vObj [plainFld "y" (.vNum 3)]) = true := by
    simp [plainV, plainFields, plainField, fieldsNodup, plainFld, JSVal.truthy]
  exact ⟨hp1, hp2, hp3, claim7_amended _ _ _ "" hp1 hp2 hp3⟩

end TeleprompterServer